import Mathlib

/-
  Verification development for the monitor example program (src/main.cpp).

  The program has three parts that the claims talk about:
  * `displayTextSlowly` (main.cpp lines 140-145): prints a text character by
    character with a delay after each character.
  * `readFile` (main.cpp lines 148-164): reads a file line by line with
    `std::getline` inside a `while (inputStream)` loop, or exits with status 1
    when the file cannot be opened.
  * `raceTest` (lines 79-101) and `monitorTest` (lines 108-137): two demos,
    each spawning two detached worker threads that share a boolean completion
    flag paired with a mutex and a condition variable.

  Sequential code is embedded as pure functions on `List Char` (a C++
  `std::string` is a sequence of chars).  The stream semantics of
  `std::getline` is embedded faithfully, including the `eofbit`/`failbit`
  behaviour: a `getline` whose sentry fails (stream already at eof) sets
  `failbit` and leaves the target string *unchanged*, while `operator bool`
  on the stream tests only `failbit` (`badbit` never arises here, there are
  no low-level read errors in scope).

  The concurrent demos are embedded as a small-step interleaving transition
  system (sequentially consistent shared memory) over three threads:
  the two workers and the orchestrating thread.  A condition-variable wait
  with predicate re-check, `while (!flag) cv.wait(lock, pred)`, is one
  statement `Stmt.waitFlag` with micro-steps: check the flag under the lock
  and either pass (flag true) or atomically release the lock and block
  (flag false); a blocked thread may be woken at any time (this also models
  spurious wakeups), after which it must reacquire the lock and re-check.
-/

set_option maxHeartbeats 1000000

namespace MonitorExample

/-! ### SlowPrinter: displayTextSlowly (main.cpp 140-145) -/

/-- One observable action of `displayTextSlowly`: a `putchar` write or a
`sleep_for` of the given number of milliseconds. -/
inductive OutEv where
  | put (c : Char)
  | sleep (ms : Nat)
deriving DecidableEq

/-- Embedding of `displayTextSlowly` (main.cpp 140-145):
`for (char c : text) { putchar(c); sleep_for(delay); }`.
The result is the ordered list of actions the loop performs. -/
def displayTextSlowly : List Char → Nat → List OutEv
  | [], _ => []
  | c :: cs, d => OutEv.put c :: OutEv.sleep d :: displayTextSlowly cs d

/-- The behaviour claim C8 asserts for `display`: each character written in
order with a sleep between *successive* characters and no sleep after the
final one.  Defined from the claim's words, for comparison with the code. -/
def displaySpec : List Char → Nat → List OutEv
  | [], _ => []
  | [c], _ => [OutEv.put c]
  | c :: c2 :: cs, d => OutEv.put c :: OutEv.sleep d :: displaySpec (c2 :: cs) d

/-- Projection extracting the written character from an action. -/
def putOf : OutEv → Option Char
  | OutEv.put c => some c
  | OutEv.sleep _ => none

/-! ### TextSource: readFile (main.cpp 148-164) -/

/-- State of the `std::ifstream`: the characters not yet consumed plus the
`eofbit` and `failbit` flags (`badbit` never arises in this program). -/
structure IStream where
  rem : List Char
  eofbit : Bool
  failbit : Bool
deriving DecidableEq

/-- Split off the first line: the characters before the first newline,
whether a newline delimiter was found, and the characters after it. -/
def takeLine : List Char → List Char × Bool × List Char
  | [] => ([], false, [])
  | c :: cs =>
    if c = '\n' then ([], true, cs)
    else (c :: (takeLine cs).1, (takeLine cs).2)

/-- Embedding of `std::getline(inputStream, line)`:
* if the stream is not good (eofbit or failbit set) the sentry fails,
  `failbit` is set and `line` is left unchanged;
* otherwise, if no characters remain, extraction hits end of file having
  extracted nothing: `eofbit` and `failbit` are set and `line` is erased;
* otherwise characters up to the first newline are extracted into `line`
  (the delimiter is consumed and discarded); if no delimiter was found the
  stream reached end of file and `eofbit` is set (no `failbit`, because
  characters were extracted). -/
def getline (s : IStream) (line : List Char) : IStream × List Char :=
  if s.eofbit || s.failbit then
    ({ s with failbit := true }, line)
  else if s.rem.isEmpty then
    ({ s with eofbit := true, failbit := true }, [])
  else if (takeLine s.rem).2.1 then
    ({ s with rem := (takeLine s.rem).2.2 }, (takeLine s.rem).1)
  else
    ({ s with rem := [], eofbit := true }, (takeLine s.rem).1)

/-- Embedding of the read loop of `readFile` (main.cpp 153-156):
`while (inputStream) { getline(inputStream, line); data += line + '\n'; }`.
`operator bool` on the stream is `!failbit`.  The loop runs until `failbit`
is set; the fuel argument is given a value large enough that it never runs
out (see `readLoop_spec`), so this is an exact embedding of the loop. -/
def readLoop : Nat → IStream → List Char → List Char → List Char
  | 0, _, _, data => data
  | fuel + 1, s, line, data =>
    if s.failbit then data
    else
      readLoop fuel (getline s line).1 (getline s line).2
        (data ++ (getline s line).2 ++ ['\n'])

/-- The message written to `std::cerr` when the file cannot be opened. -/
def fatalMsg : List Char := "Fatal Error: Could not open input file\n".toList

/-- Embedding of `readFile` (main.cpp 148-164).  `openOk` states whether
the underlying store can be opened for reading (the `if (inputStream)`
test after construction).  On failure the function writes `fatalMsg` to the
error stream and terminates the process with exit status 1, modelled as
`Except.error (1, fatalMsg)`; no blob is produced and the content is never
touched.  On success it returns the accumulated data. -/
def readFile (openOk : Bool) (content : List Char) :
    Except (Nat × List Char) (List Char) :=
  if openOk then
    Except.ok (readLoop (content.length + 2) ⟨content, false, false⟩ [] [])
  else
    Except.error (1, fatalMsg)

/-- The blob claim C5 asserts `readFile` returns on a readable file: the
content itself when it already ends in a newline, otherwise the content
with exactly one newline appended.  Defined from the claim's words. -/
def readFileClaim (content : List Char) : List Char :=
  if content.getLast? = some '\n' then content else content ++ ['\n']

/-- The suffix of the content after its last newline (the final,
unterminated line).  Used to state what `readFile` actually returns. -/
def lastSeg : List Char → List Char
  | [] => []
  | c :: cs => if c = '\n' then lastSeg cs else if '\n' ∈ cs then lastSeg cs else c :: cs

/-! #### Lemmas about takeLine and lastSeg -/

theorem takeLine_found :
    ∀ c b r : List Char, takeLine c = (b, true, r) → c = b ++ '\n' :: r := by
  intro c
  induction c with
  | nil => intro b r h; simp [takeLine] at h
  | cons x cs ih =>
    intro b r h
    by_cases hx : x = '\n'
    · rw [takeLine.eq_def] at h
      simp only [if_pos hx, Prod.mk.injEq, true_and] at h
      rw [← h.1, ← h.2, hx]
      simp
    · rcases htl : takeLine cs with ⟨b2, fnd2, r2⟩
      rw [takeLine.eq_def] at h
      simp only [if_neg hx, htl, Prod.mk.injEq] at h
      obtain ⟨hb, hf2, hr⟩ := h
      rw [hf2] at htl
      have hcs := ih b2 r2 htl
      rw [← hb, ← hr, hcs]
      simp

theorem takeLine_not_found :
    ∀ c b r : List Char, takeLine c = (b, false, r) →
      b = c ∧ r = [] ∧ '\n' ∉ c := by
  intro c
  induction c with
  | nil =>
    intro b r h
    rw [takeLine.eq_def] at h
    simp only [Prod.mk.injEq] at h
    simp [← h.1, ← h.2.2]
  | cons x cs ih =>
    intro b r h
    by_cases hx : x = '\n'
    · rw [takeLine.eq_def] at h
      simp [if_pos hx] at h
    · rcases htl : takeLine cs with ⟨b2, fnd2, r2⟩
      rw [takeLine.eq_def] at h
      simp only [if_neg hx, htl, Prod.mk.injEq] at h
      obtain ⟨hb, hf2, hr⟩ := h
      rw [hf2] at htl
      obtain ⟨h1, h2, h3⟩ := ih b2 r2 htl
      refine ⟨by rw [← hb, h1], by rw [← hr, h2], ?_⟩
      simp [h3, Ne.symm hx]

theorem lastSeg_append_newline :
    ∀ b r : List Char, lastSeg (b ++ '\n' :: r) = lastSeg r := by
  intro b
  induction b with
  | nil => intro r; simp [lastSeg]
  | cons x b ih =>
    intro r
    by_cases hx : x = '\n'
    · simp [lastSeg, hx, ih]
    · simp [lastSeg, hx, ih, List.mem_append]

theorem lastSeg_of_not_mem :
    ∀ c : List Char, '\n' ∉ c → lastSeg c = c := by
  intro c
  induction c with
  | nil => simp [lastSeg]
  | cons x cs ih =>
    intro h
    simp only [List.mem_cons, not_or] at h
    simp [lastSeg, Ne.symm h.1, h.2]

theorem mem_of_getLast?_eq {c : List Char} {x : Char}
    (h : c.getLast? = some x) : x ∈ c :=
  List.mem_of_mem_getLast? (by simp [Option.mem_def, h])

theorem getLast?_split_nil (b : List Char) :
    (b ++ '\n' :: ([] : List Char)).getLast? = some '\n' := by
  rw [List.getLast?_append_cons]
  rfl

theorem getLast?_split_ne (b r : List Char) (h : r ≠ []) :
    (b ++ '\n' :: r).getLast? = r.getLast? := by
  rw [List.getLast?_append_cons]
  rcases r with _ | ⟨y, ys⟩
  · exact absurd rfl h
  · exact List.getLast?_cons_cons

/-! #### The behaviour of the read loop -/

/-- Exact characterisation of the read loop of `readFile`, started on a
fresh good stream holding `c`, for any sufficient fuel: when `c` is empty
or ends in a newline the loop appends `c ++ "\n"` to the accumulator;
otherwise it appends `c ++ "\n"` followed by a duplicate of the final
unterminated line and another `"\n"` (the final `getline` fails in its
sentry, leaves `line` holding that last line, and the loop body still
appends `line + '\n'` once more before the `failbit` test stops it). -/
theorem readLoop_spec :
    ∀ (fuel : Nat) (c line data : List Char), c.length + 2 ≤ fuel →
      readLoop fuel ⟨c, false, false⟩ line data =
        if c = [] ∨ c.getLast? = some '\n' then data ++ c ++ ['\n']
        else data ++ c ++ ['\n'] ++ lastSeg c ++ ['\n'] := by
  intro fuel
  induction fuel with
  | zero => intro c line data h; omega
  | succ m ih =>
    intro c line data h
    rcases hc : c with _ | ⟨x, cs⟩
    · -- empty content: getline sets eofbit and failbit and erases line;
      -- the body appends just the newline and the next test stops.
      obtain ⟨m1, rfl⟩ : ∃ m1, m = m1 + 1 := ⟨m - 1, by omega⟩
      simp [readLoop, getline]
    · subst hc
      rcases htl : takeLine (x :: cs) with ⟨b, fnd, r⟩
      have hlen : (x :: cs).length + 2 ≤ m + 1 := h
      rcases fnd with _ | _
      · -- no newline in the content: getline extracts everything and sets
        -- eofbit; the next getline fails in its sentry leaving line as is,
        -- and the loop body appends the last line once more.
        obtain ⟨hb, hr, hmem⟩ := takeLine_not_found _ _ _ htl
        subst hb
        obtain ⟨m1, rfl⟩ : ∃ m1, m = m1 + 1 := ⟨m - 1, by simp at hlen; omega⟩
        obtain ⟨m2, rfl⟩ : ∃ m2, m1 = m2 + 1 := ⟨m1 - 1, by simp at hlen; omega⟩
        have hend : ¬((x :: cs) = [] ∨ (x :: cs).getLast? = some '\n') := by
          rintro (hnil | hnl)
          · exact List.cons_ne_nil x cs hnil
          · exact hmem (mem_of_getLast?_eq hnl)
        rw [if_neg hend]
        simp only [readLoop, getline, htl]
        simp [lastSeg_of_not_mem _ hmem, List.append_assoc]
      · -- a newline found: one full line is consumed, no flag is set, and
        -- the loop continues on the rest of the content.
        have hsplit := takeLine_found _ _ _ htl
        have hlen2 : cs.length = b.length + r.length := by
          have := congrArg List.length hsplit
          simp at this
          omega
        have step1 : readLoop (m + 1) ⟨x :: cs, false, false⟩ line data =
            readLoop m ⟨r, false, false⟩ b (data ++ b ++ ['\n']) := by
          simp [readLoop, getline, htl]
        have hrec := ih r b (data ++ b ++ ['\n']) (by simp at hlen; omega)
        rw [step1, hrec]
        rcases Decidable.em (r = []) with hnil | hne
        · subst hnil
          have hlast : (x :: cs).getLast? = some '\n' := by
            rw [hsplit]; exact getLast?_split_nil b
          rw [if_pos (Or.inl rfl), if_pos (Or.inr hlast), hsplit]
          simp [List.append_assoc]
        · have hlast : (x :: cs).getLast? = r.getLast? := by
            rw [hsplit]; exact getLast?_split_ne b r hne
          rcases Decidable.em (r.getLast? = some '\n') with hnl | hnl
          · rw [if_pos (Or.inr hnl), if_pos (Or.inr (by rw [hlast]; exact hnl)),
              hsplit]
            simp [List.append_assoc]
          · have hseg : lastSeg (x :: cs) = lastSeg r := by
              rw [hsplit, lastSeg_append_newline]
            rw [if_neg (by tauto), if_neg (by
              rintro (hnil2 | hnl2)
              · exact List.cons_ne_nil x cs hnil2
              · rw [hlast] at hnl2; exact hnl hnl2)]
            rw [hseg, hsplit]
            simp [List.append_assoc]

/-! #### Claims about the sequential helpers -/

/-- C7: `displayTextSlowly` called on the empty blob performs no actions at
all — zero character writes (and no sleeps either, so it returns
immediately) — for every delay value. -/
theorem displayTextSlowly_empty (d : Nat) : displayTextSlowly [] d = [] := rfl

/-- C8 as stated is false on the code: already on the one-character blob
"a" the loop emits a sleep after the final (only) character, whereas the
claimed behaviour (`displaySpec`, sleeps only between successive
characters) has none. -/
theorem displayTextSlowly_final_sleep_cex :
    displayTextSlowly ['a'] 3 = [OutEv.put 'a', OutEv.sleep 3] ∧
    displaySpec ['a'] 3 = [OutEv.put 'a'] ∧
    displayTextSlowly ['a'] 3 ≠ displaySpec ['a'] 3 := by
  refine ⟨rfl, rfl, ?_⟩
  decide

/-- C8 (amended): `displayTextSlowly` writes exactly the characters of the
blob in the blob's order, one write at a time, and sleeps for the delay
after every character — between successive characters and once more after
the final one. -/
theorem displayTextSlowly_amended (t : List Char) (d : Nat) :
    (displayTextSlowly t d).filterMap putOf = t ∧
    displayTextSlowly t d =
      displaySpec t d ++ (if t = [] then [] else [OutEv.sleep d]) := by
  constructor
  · induction t with
    | nil => rfl
    | cons c cs ih => simp [displayTextSlowly, putOf, ih]
  · induction t with
    | nil => rfl
    | cons c cs ih =>
      rcases cs with _ | ⟨c2, cs2⟩
      · rfl
      · show OutEv.put c :: OutEv.sleep d :: displayTextSlowly (c2 :: cs2) d =
          (OutEv.put c :: OutEv.sleep d :: displaySpec (c2 :: cs2) d) ++ _
        rw [ih]
        simp

/-- C5 as stated is false on the code: the file "a\n" already ends in a
newline, so the claim says its content comes back unchanged, but
`readFile` returns "a\n\n" with an extra newline appended (the loop tests
the stream, which is not yet at eof after consuming the delimiter, and
runs one more failing `getline` whose erased line still gets a newline
appended). -/
theorem readFile_unchanged_cex :
    readFile true ['a', '\n'] = Except.ok ['a', '\n', '\n'] ∧
    readFileClaim ['a', '\n'] = ['a', '\n'] ∧
    readFile true ['a', '\n'] ≠ Except.ok (readFileClaim ['a', '\n']) := by
  have h1 : readFile true ['a', '\n'] = Except.ok ['a', '\n', '\n'] := rfl
  have h2 : readFileClaim ['a', '\n'] = ['a', '\n'] := by decide
  refine ⟨h1, h2, ?_⟩
  rw [h1, h2]
  intro hcon
  exact absurd (Except.ok.inj hcon) (by decide)

/-- C5 (amended): for every resource that exists and is non-empty,
`readFile` returns the content with each line newline-terminated, then one
extra final newline when the content already ends in a newline, and
otherwise a duplicate of the final unterminated line followed by a newline
(the stream is tested before `getline`, and a `getline` whose sentry fails
at end of file leaves the line buffer unchanged, yet the loop body still
appends it once more). -/
theorem readFile_result (c : List Char) (h : c ≠ []) :
    readFile true c =
      Except.ok (if c.getLast? = some '\n'
        then c ++ ['\n']
        else c ++ ['\n'] ++ lastSeg c ++ ['\n']) := by
  have hs := readLoop_spec (c.length + 2) c [] [] (le_refl _)
  show Except.ok (readLoop (c.length + 2) ⟨c, false, false⟩ [] []) = _
  rw [hs]
  rcases Decidable.em (c.getLast? = some '\n') with hnl | hnl
  · rw [if_pos (Or.inr hnl), if_pos hnl]
    simp
  · rw [if_neg (by tauto), if_neg hnl]
    simp

/-- Witness for `readFile_result` at the concrete file "a\n". -/
theorem readFile_result_w :
    (['a', '\n'] : List Char) ≠ [] ∧
    readFile true ['a', '\n'] = Except.ok ['a', '\n', '\n'] := by
  refine ⟨by decide, ?_⟩
  have h := readFile_result ['a', '\n'] (by decide)
  rw [h, if_pos (by rfl)]
  rfl

/-- C6: when the underlying store cannot be opened for reading, `readFile`
reports the fatal error message on the error stream and terminates the
process with exit status 1; no blob is produced and no partial read is
performed (the result does not depend on the content at all). -/
theorem readFile_open_failure (content : List Char) :
    readFile false content = Except.error (1, fatalMsg) ∧
    ∀ other : List Char, readFile false content = readFile false other :=
  ⟨rfl, fun _ => rfl⟩

/-- C10: `readFile` on a successfully opened but empty file returns the
one-character blob "\n", not the empty string; and every successful result
is non-empty and ends in a newline. -/
theorem readFile_empty_newline (c : List Char) :
    readFile true [] = Except.ok ['\n'] ∧
    ∃ r, readFile true c = Except.ok r ∧ r ≠ [] ∧ r.getLast? = some '\n' := by
  refine ⟨rfl, ?_⟩
  have hs := readLoop_spec (c.length + 2) c [] [] (le_refl _)
  rcases Decidable.em (c = [] ∨ c.getLast? = some '\n') with hcond | hcond
  · refine ⟨c ++ ['\n'], ?_, by simp, List.getLast?_concat c⟩
    show Except.ok (readLoop (c.length + 2) ⟨c, false, false⟩ [] []) = _
    rw [hs, if_pos hcond]
    simp
  · refine ⟨c ++ ['\n'] ++ lastSeg c ++ ['\n'], ?_, by simp, ?_⟩
    · show Except.ok (readLoop (c.length + 2) ⟨c, false, false⟩ [] []) = _
      rw [hs, if_neg hcond]
      simp
    · exact List.getLast?_concat _

/-! ### The two concurrent demos (raceTest, main.cpp 79-101, and
monitorTest, main.cpp 108-137)

Each demo is a three-thread system: worker thread `a` (the one printing
the rock text), worker thread `b` (the one printing the hamlet text) and
the orchestrating thread `o`.  Shared state is the demo's completion flag,
the mutex owner, and the ordered list of write events on standard output.
The interleaving of thread steps is fully nondeterministic (any reachable
configuration of the step relation corresponds to an execution under some
scheduler). -/

/-- The three threads of a demo run. -/
inductive TId where
  | a | b | o
deriving DecidableEq

/-- Statements of the thread bodies:
* `out s` — a write of the text `s` to standard output (`cout <<` or
  `putchar`);
* `sleep ms` — `std::this_thread::sleep_for` (no shared effect);
* `lock` / `unlock` — acquiring / releasing the demo's mutex
  (`std::unique_lock` construction and `unlock`);
* `waitFlag` — the guarded wait `while (!flag) cv.wait(lock, pred)` with
  the flag as the re-check predicate;
* `setFlag v` — the plain assignment `flag = v;`;
* `notifyAll` — `cv.notify_all()`. -/
inductive Stmt where
  | out (s : List Char)
  | sleep (ms : Nat)
  | lock
  | unlock
  | waitFlag
  | setFlag (v : Bool)
  | notifyAll
deriving DecidableEq

/-- Runtime mode of a thread sitting at a `waitFlag` statement: normally
`run`; `blocked` after releasing the lock inside the wait; `waking` after
a notification or spurious wakeup, before reacquiring the lock. -/
inductive Mode where
  | run | blocked | waking
deriving DecidableEq

/-- A thread: its remaining statements and its mode. -/
structure Thread where
  rest : List Stmt
  mode : Mode
deriving DecidableEq

/-- A configuration of a demo run: the shared completion flag, the mutex
owner (`none` when free), the three threads, and the ordered list of
output events so far, each tagged with the writing thread. -/
structure Config where
  flag : Bool
  owner : Option TId
  ta : Thread
  tb : Thread
  tc : Thread
  outs : List (TId × List Char)
deriving DecidableEq

/-- The thread of a configuration with the given id. -/
def Config.thr (c : Config) : TId → Thread
  | TId.a => c.ta
  | TId.b => c.tb
  | TId.o => c.tc

/-- The configuration after thread `tid` steps to thread state `t`, with
new flag `f`, new owner `o`, and emitted output events `e` (appended to
the output trace). -/
def stepApply (c : Config) (tid : TId) (f : Bool) (o : Option TId)
    (t : Thread) (e : List (TId × List Char)) : Config :=
  match tid with
  | TId.a => { flag := f, owner := o, ta := t, tb := c.tb, tc := c.tc,
               outs := c.outs ++ e }
  | TId.b => { flag := f, owner := o, ta := c.ta, tb := t, tc := c.tc,
               outs := c.outs ++ e }
  | TId.o => { flag := f, owner := o, ta := c.ta, tb := c.tb, tc := t,
               outs := c.outs ++ e }

/-- One step of a single thread `tid`, relating (flag, owner, thread)
before and after, with the list of emitted output events.  The `waitFlag`
micro-steps embed `while (!flag) cv.wait(lock, pred)` with the flag as
predicate: with the lock held the flag is checked — if true the thread
passes (still holding the lock), if false it atomically releases the lock
and blocks; a blocked thread may be woken at any time (modelling both
`notify_all` and spurious wakeups), after which it must reacquire the
free lock and re-check the flag from the start. -/
inductive LStep (tid : TId) :
    Bool → Option TId → Thread → Bool → Option TId → Thread →
    List (TId × List Char) → Prop where
  | outS (f : Bool) (o : Option TId) (s : List Char) (k : List Stmt) :
      LStep tid f o ⟨Stmt.out s :: k, Mode.run⟩ f o ⟨k, Mode.run⟩ [(tid, s)]
  | sleepS (f : Bool) (o : Option TId) (n : Nat) (k : List Stmt) :
      LStep tid f o ⟨Stmt.sleep n :: k, Mode.run⟩ f o ⟨k, Mode.run⟩ []
  | lockS (f : Bool) (k : List Stmt) :
      LStep tid f none ⟨Stmt.lock :: k, Mode.run⟩ f (some tid) ⟨k, Mode.run⟩ []
  | unlockS (f : Bool) (k : List Stmt) :
      LStep tid f (some tid) ⟨Stmt.unlock :: k, Mode.run⟩ f none ⟨k, Mode.run⟩ []
  | setFlagS (f : Bool) (o : Option TId) (v : Bool) (k : List Stmt) :
      LStep tid f o ⟨Stmt.setFlag v :: k, Mode.run⟩ v o ⟨k, Mode.run⟩ []
  | notifyS (f : Bool) (o : Option TId) (k : List Stmt) :
      LStep tid f o ⟨Stmt.notifyAll :: k, Mode.run⟩ f o ⟨k, Mode.run⟩ []
  | waitPass (k : List Stmt) :
      LStep tid true (some tid) ⟨Stmt.waitFlag :: k, Mode.run⟩ true (some tid)
        ⟨k, Mode.run⟩ []
  | waitBlock (k : List Stmt) :
      LStep tid false (some tid) ⟨Stmt.waitFlag :: k, Mode.run⟩ false none
        ⟨Stmt.waitFlag :: k, Mode.blocked⟩ []
  | wakeS (f : Bool) (o : Option TId) (k : List Stmt) :
      LStep tid f o ⟨Stmt.waitFlag :: k, Mode.blocked⟩ f o
        ⟨Stmt.waitFlag :: k, Mode.waking⟩ []
  | reacquire (f : Bool) (k : List Stmt) :
      LStep tid f none ⟨Stmt.waitFlag :: k, Mode.waking⟩ f (some tid)
        ⟨Stmt.waitFlag :: k, Mode.run⟩ []

/-- One interleaving step of the whole system: some thread takes a step. -/
inductive Step : Config → Config → Prop where
  | mk (c : Config) (tid : TId) (f : Bool) (o : Option TId) (t : Thread)
      (e : List (TId × List Char))
      (h : LStep tid c.flag c.owner (c.thr tid) f o t e) :
      Step c (stepApply c tid f o t e)

/-- Reachability from an initial configuration. -/
inductive Reach (init : Config) : Config → Prop where
  | refl : Reach init init
  | tail {c c2 : Config} (h1 : Reach init c) (h2 : Step c c2) : Reach init c2

/-! #### The thread programs of the two demos -/

/-- `TEXT_DELAY` (main.cpp line 70), in milliseconds. -/
def TEXT_DELAY : Nat := 3

/-- `MAIN_WAIT` (main.cpp line 71), in milliseconds. -/
def MAIN_WAIT : Nat := 1000

def rockBanner : List Char := "I Wanna Rock by Twisted Sister: \n".toList

def hamletBanner : List Char := "Hamlet Act III Scene I: \n".toList

def raceHeader : List Char := "Displaying texts with race conditions: \n".toList

def monitorHeader : List Char :=
  "Displaying texts in correct order with a monitor: \n".toList

/-- A `displayTextSlowly` action as a thread statement. -/
def evStmt : OutEv → Stmt
  | OutEv.put ch => Stmt.out [ch]
  | OutEv.sleep n => Stmt.sleep n

/-- The statements a thread performs when calling
`displayTextSlowly(text, d)`. -/
def displayStmts (text : List Char) (d : Nat) : List Stmt :=
  (displayTextSlowly text d).map evStmt

/-- monitorTest thread A (main.cpp 112-120): print the banner, stream the
rock text, print a final newline, then set the flag (not under the lock —
the lambda never touches `printMutex`) and notify all waiters. -/
def monitorProgA (rock : List Char) : List Stmt :=
  Stmt.out rockBanner :: displayStmts rock TEXT_DELAY ++
    [Stmt.out ['\n'], Stmt.setFlag true, Stmt.notifyAll]

/-- What monitorTest thread B (main.cpp 123-133) does after passing its
wait loop: print the banner, stream the hamlet text, release the lock. -/
def monitorTailB (hamlet : List Char) : List Stmt :=
  Stmt.out hamletBanner :: displayStmts hamlet TEXT_DELAY ++ [Stmt.unlock]

/-- monitorTest thread B (main.cpp 123-133): acquire the lock, wait on the
condition variable until the flag is true (with predicate re-check), then
print. -/
def monitorProgB (hamlet : List Char) : List Stmt :=
  Stmt.lock :: Stmt.waitFlag :: monitorTailB hamlet

/-- monitorTest orchestrating thread after spawning (main.cpp 135-136):
sleep for `MAIN_WAIT + (rock.size() + hamlet.size()) * TEXT_DELAY`
milliseconds, then print a newline.  It touches neither the mutex, nor
the condition variable, nor the flag. -/
def monitorProgOrch (rock hamlet : List Char) : List Stmt :=
  [Stmt.sleep (MAIN_WAIT + (rock.length + hamlet.length) * TEXT_DELAY),
   Stmt.out ['\n']]

/-- Initial configuration of monitorTest, after the orchestrator printed
the demo header (before spawning) and spawned both workers: flag false,
mutex free, all threads running at the start of their bodies. -/
def monitorInit (rock hamlet : List Char) : Config :=
  { flag := false, owner := none,
    ta := ⟨monitorProgA rock, Mode.run⟩,
    tb := ⟨monitorProgB hamlet, Mode.run⟩,
    tc := ⟨monitorProgOrch rock hamlet, Mode.run⟩,
    outs := [(TId.o, monitorHeader)] }

/-- raceTest thread A (main.cpp 81-84): banner then rock text, no
synchronisation at all. -/
def raceProgA (rock : List Char) : List Stmt :=
  Stmt.out rockBanner :: displayStmts rock TEXT_DELAY

/-- raceTest thread B (main.cpp 85-90): banner then hamlet text, then set
the completion flag (not under the lock) and notify all waiters. -/
def raceProgB (hamlet : List Char) : List Stmt :=
  Stmt.out hamletBanner :: displayStmts hamlet TEXT_DELAY ++
    [Stmt.setFlag true, Stmt.notifyAll]

/-- What the raceTest orchestrator (main.cpp 92-100) does after passing
its wait loop: sleep `MAIN_WAIT` more, print a newline, unlock. -/
def raceTailO : List Stmt :=
  [Stmt.sleep MAIN_WAIT, Stmt.out ['\n'], Stmt.unlock]

/-- raceTest orchestrating thread after spawning (main.cpp 92-100):
acquire the lock and wait on the condition variable with the flag as
re-check predicate, then finish up. -/
def raceProgO : List Stmt := Stmt.lock :: Stmt.waitFlag :: raceTailO

/-- Initial configuration of raceTest, after the orchestrator printed the
demo header and spawned both workers. -/
def raceInit (rock hamlet : List Char) : Config :=
  { flag := false, owner := none,
    ta := ⟨raceProgA rock, Mode.run⟩,
    tb := ⟨raceProgB hamlet, Mode.run⟩,
    tc := ⟨raceProgO, Mode.run⟩,
    outs := [(TId.o, raceHeader)] }

/-! #### Projections on output traces and programs -/

/-- Is this output event thread A's? -/
def tagA : TId × List Char → Bool
  | (TId.a, _) => true
  | _ => false

/-- Is this output event thread B's? -/
def tagB : TId × List Char → Bool
  | (TId.b, _) => true
  | _ => false

/-- Does the trace contain an output event of thread A? -/
def anyA (l : List (TId × List Char)) : Bool := l.any tagA

/-- Does the trace contain an output event of thread B? -/
def anyB (l : List (TId × List Char)) : Bool := l.any tagB

/-- The payload of thread A's output events, in trace order. -/
def projA : TId × List Char → Option (List Char)
  | (TId.a, s) => some s
  | _ => none

def outsA (l : List (TId × List Char)) : List (List Char) := l.filterMap projA

/-- The payload of an `out` statement. -/
def outOf : Stmt → Option (List Char)
  | Stmt.out s => some s
  | _ => none

/-- The texts a statement list writes, in order. -/
def emits (p : List Stmt) : List (List Char) := p.filterMap outOf

/-- Total milliseconds of sleeping a statement list performs. -/
def sleepTotal (p : List Stmt) : Nat :=
  (p.map fun s => match s with | Stmt.sleep n => n | _ => 0).sum

/-- Does a statement touch the monitor (mutex, condition variable or
completion flag)? -/
def usesMonitor : Stmt → Bool
  | Stmt.lock => true
  | Stmt.unlock => true
  | Stmt.waitFlag => true
  | Stmt.setFlag _ => true
  | Stmt.notifyAll => true
  | _ => false

/-! #### Case analysis of a single thread step -/

/-- Complete case analysis of `LStep`, as a disjunction usable by
`rcases` in invariant-preservation proofs. -/
theorem LStep.full {tid : TId} {f : Bool} {o : Option TId} {th : Thread}
    {f2 : Bool} {o2 : Option TId} {t2 : Thread}
    {e : List (TId × List Char)} (h : LStep tid f o th f2 o2 t2 e) :
    (∃ s k, th = ⟨Stmt.out s :: k, Mode.run⟩ ∧ f2 = f ∧ o2 = o ∧
      t2 = ⟨k, Mode.run⟩ ∧ e = [(tid, s)]) ∨
    (∃ n k, th = ⟨Stmt.sleep n :: k, Mode.run⟩ ∧ f2 = f ∧ o2 = o ∧
      t2 = ⟨k, Mode.run⟩ ∧ e = []) ∨
    (∃ k, th = ⟨Stmt.lock :: k, Mode.run⟩ ∧ o = none ∧ f2 = f ∧
      o2 = some tid ∧ t2 = ⟨k, Mode.run⟩ ∧ e = []) ∨
    (∃ k, th = ⟨Stmt.unlock :: k, Mode.run⟩ ∧ o = some tid ∧ f2 = f ∧
      o2 = none ∧ t2 = ⟨k, Mode.run⟩ ∧ e = []) ∨
    (∃ v k, th = ⟨Stmt.setFlag v :: k, Mode.run⟩ ∧ f2 = v ∧ o2 = o ∧
      t2 = ⟨k, Mode.run⟩ ∧ e = []) ∨
    (∃ k, th = ⟨Stmt.notifyAll :: k, Mode.run⟩ ∧ f2 = f ∧ o2 = o ∧
      t2 = ⟨k, Mode.run⟩ ∧ e = []) ∨
    (∃ k, th = ⟨Stmt.waitFlag :: k, Mode.run⟩ ∧ f = true ∧ o = some tid ∧
      f2 = f ∧ o2 = o ∧ t2 = ⟨k, Mode.run⟩ ∧ e = []) ∨
    (∃ k, th = ⟨Stmt.waitFlag :: k, Mode.run⟩ ∧ f = false ∧ o = some tid ∧
      f2 = f ∧ o2 = none ∧ t2 = ⟨Stmt.waitFlag :: k, Mode.blocked⟩ ∧
      e = []) ∨
    (∃ k, th = ⟨Stmt.waitFlag :: k, Mode.blocked⟩ ∧ f2 = f ∧ o2 = o ∧
      t2 = ⟨Stmt.waitFlag :: k, Mode.waking⟩ ∧ e = []) ∨
    (∃ k, th = ⟨Stmt.waitFlag :: k, Mode.waking⟩ ∧ o = none ∧ f2 = f ∧
      o2 = some tid ∧ t2 = ⟨Stmt.waitFlag :: k, Mode.run⟩ ∧ e = []) := by
  cases h with
  | outS f o s k => exact Or.inl ⟨s, k, rfl, rfl, rfl, rfl, rfl⟩
  | sleepS f o n k => exact Or.inr (Or.inl ⟨n, k, rfl, rfl, rfl, rfl, rfl⟩)
  | lockS f k => exact Or.inr (Or.inr (Or.inl ⟨k, rfl, rfl, rfl, rfl, rfl, rfl⟩))
  | unlockS f k =>
    exact Or.inr (Or.inr (Or.inr (Or.inl ⟨k, rfl, rfl, rfl, rfl, rfl, rfl⟩)))
  | setFlagS f o v k =>
    exact Or.inr (Or.inr (Or.inr (Or.inr (Or.inl
      ⟨_, _, rfl, rfl, rfl, rfl, rfl⟩))))
  | notifyS f o k =>
    exact Or.inr (Or.inr (Or.inr (Or.inr (Or.inr (Or.inl
      ⟨k, rfl, rfl, rfl, rfl, rfl⟩)))))
  | waitPass k =>
    exact Or.inr (Or.inr (Or.inr (Or.inr (Or.inr (Or.inr (Or.inl
      ⟨k, rfl, rfl, rfl, rfl, rfl, rfl, rfl⟩))))))
  | waitBlock k =>
    exact Or.inr (Or.inr (Or.inr (Or.inr (Or.inr (Or.inr (Or.inr (Or.inl
      ⟨k, rfl, rfl, rfl, rfl, rfl, rfl, rfl⟩)))))))
  | wakeS f o k =>
    exact Or.inr (Or.inr (Or.inr (Or.inr (Or.inr (Or.inr (Or.inr (Or.inr
      (Or.inl ⟨k, rfl, rfl, rfl, rfl, rfl⟩))))))))
  | reacquire f k =>
    exact Or.inr (Or.inr (Or.inr (Or.inr (Or.inr (Or.inr (Or.inr (Or.inr
      (Or.inr ⟨k, rfl, rfl, rfl, rfl, rfl, rfl⟩))))))))

/-- A step leaves the remaining statements unchanged or consumes exactly
the head statement. -/
theorem LStep.rest_shape {tid : TId} {f : Bool} {o : Option TId}
    {th : Thread} {f2 : Bool} {o2 : Option TId} {t2 : Thread}
    {e : List (TId × List Char)} (h : LStep tid f o th f2 o2 t2 e) :
    t2.rest = th.rest ∨ ∃ s, th.rest = s :: t2.rest := by
  cases h with
  | outS f o s k => exact Or.inr ⟨_, rfl⟩
  | sleepS f o n k => exact Or.inr ⟨_, rfl⟩
  | lockS f k => exact Or.inr ⟨_, rfl⟩
  | unlockS f k => exact Or.inr ⟨_, rfl⟩
  | setFlagS f o v k => exact Or.inr ⟨_, rfl⟩
  | notifyS f o k => exact Or.inr ⟨_, rfl⟩
  | waitPass k => exact Or.inr ⟨_, rfl⟩
  | waitBlock k => exact Or.inl rfl
  | wakeS f o k => exact Or.inl rfl
  | reacquire f k => exact Or.inl rfl

/-- A step changes the flag only by executing a `setFlag` head. -/
theorem LStep.flag_shape {tid : TId} {f : Bool} {o : Option TId}
    {th : Thread} {f2 : Bool} {o2 : Option TId} {t2 : Thread}
    {e : List (TId × List Char)} (h : LStep tid f o th f2 o2 t2 e) :
    f2 = f ∨ ∃ v k, th.rest = Stmt.setFlag v :: k ∧ f2 = v ∧ t2.rest = k := by
  cases h with
  | setFlagS f o v k => exact Or.inr ⟨_, _, rfl, rfl, rfl⟩
  | outS f o s k => exact Or.inl rfl
  | sleepS f o n k => exact Or.inl rfl
  | lockS f k => exact Or.inl rfl
  | unlockS f k => exact Or.inl rfl
  | notifyS f o k => exact Or.inl rfl
  | waitPass k => exact Or.inl rfl
  | waitBlock k => exact Or.inl rfl
  | wakeS f o k => exact Or.inl rfl
  | reacquire f k => exact Or.inl rfl

/-- A step emits no event, or emits exactly one event by executing an
`out` head. -/
theorem LStep.emit_shape {tid : TId} {f : Bool} {o : Option TId}
    {th : Thread} {f2 : Bool} {o2 : Option TId} {t2 : Thread}
    {e : List (TId × List Char)} (h : LStep tid f o th f2 o2 t2 e) :
    (e = [] ∧ emits th.rest = emits t2.rest) ∨
      ∃ s k, th.rest = Stmt.out s :: k ∧ t2.rest = k ∧ e = [(tid, s)] := by
  cases h with
  | outS f o s k => exact Or.inr ⟨s, k, rfl, rfl, rfl⟩
  | sleepS f o n k => exact Or.inl ⟨rfl, by simp [emits, outOf]⟩
  | lockS f k => exact Or.inl ⟨rfl, by simp [emits, outOf]⟩
  | unlockS f k => exact Or.inl ⟨rfl, by simp [emits, outOf]⟩
  | setFlagS f o v k => exact Or.inl ⟨rfl, by simp [emits, outOf]⟩
  | notifyS f o k => exact Or.inl ⟨rfl, by simp [emits, outOf]⟩
  | waitPass k => exact Or.inl ⟨rfl, by simp [emits, outOf]⟩
  | waitBlock k => exact Or.inl ⟨rfl, rfl⟩
  | wakeS f o k => exact Or.inl ⟨rfl, rfl⟩
  | reacquire f k => exact Or.inl ⟨rfl, rfl⟩

/-- A step makes a thread the owner of the mutex only if that thread took
it by a `lock` or by reacquiring inside a wait, or already owned it. -/
theorem LStep.owner_gain {tid : TId} {f : Bool} {o : Option TId}
    {th : Thread} {f2 : Bool} {o2 : Option TId} {t2 : Thread}
    {e : List (TId × List Char)} (h : LStep tid f o th f2 o2 t2 e)
    (x : TId) (hx : o2 = some x) :
    o = some x ∨
      (x = tid ∧ ((∃ k, th.rest = Stmt.lock :: k) ∨
        ∃ k, th.rest = Stmt.waitFlag :: k)) := by
  cases h with
  | outS f o s k => exact Or.inl hx
  | sleepS f o n k => exact Or.inl hx
  | lockS f k =>
    exact Or.inr ⟨by injection hx with hx2; exact hx2.symm, Or.inl ⟨k, rfl⟩⟩
  | unlockS f k => exact absurd hx (by simp)
  | setFlagS f o v k => exact Or.inl hx
  | notifyS f o k => exact Or.inl hx
  | waitPass k => exact Or.inl hx
  | waitBlock k => exact absurd hx (by simp)
  | wakeS f o k => exact Or.inl hx
  | reacquire f k =>
    exact Or.inr ⟨by injection hx with hx2; exact hx2.symm, Or.inr ⟨k, rfl⟩⟩

/-! #### Facts about the fields of `stepApply` -/

theorem stepApply_flag (c : Config) (tid : TId) (f : Bool) (o : Option TId)
    (t : Thread) (e : List (TId × List Char)) :
    (stepApply c tid f o t e).flag = f := by cases tid <;> rfl

theorem stepApply_owner (c : Config) (tid : TId) (f : Bool) (o : Option TId)
    (t : Thread) (e : List (TId × List Char)) :
    (stepApply c tid f o t e).owner = o := by cases tid <;> rfl

theorem stepApply_outs (c : Config) (tid : TId) (f : Bool) (o : Option TId)
    (t : Thread) (e : List (TId × List Char)) :
    (stepApply c tid f o t e).outs = c.outs ++ e := by cases tid <;> rfl

theorem stepApply_thr_self (c : Config) (tid : TId) (f : Bool)
    (o : Option TId) (t : Thread) (e : List (TId × List Char)) :
    (stepApply c tid f o t e).thr tid = t := by cases tid <;> rfl

theorem stepApply_thr_other (c : Config) (tid : TId) (f : Bool)
    (o : Option TId) (t : Thread) (e : List (TId × List Char)) (x : TId)
    (hx : x ≠ tid) : (stepApply c tid f o t e).thr x = c.thr x := by
  cases tid <;> cases x <;> first | exact absurd rfl hx | rfl

/-! #### Facts about the thread programs -/

theorem displayStmts_no_monitor (t : List Char) (d : Nat) :
    ∀ s ∈ displayStmts t d, usesMonitor s = false := by
  induction t with
  | nil => simp [displayStmts, displayTextSlowly]
  | cons c cs ih =>
    intro s hs
    simp only [displayStmts, displayTextSlowly, List.map_cons, List.mem_cons,
      evStmt] at hs
    rcases hs with rfl | rfl | hs
    · rfl
    · rfl
    · exact ih s hs

theorem setFlag_not_mem_displayStmts (t : List Char) (d : Nat) (v : Bool) :
    Stmt.setFlag v ∉ displayStmts t d := fun h => by
  simpa [usesMonitor] using displayStmts_no_monitor t d _ h

theorem lock_not_mem_displayStmts (t : List Char) (d : Nat) :
    Stmt.lock ∉ displayStmts t d := fun h => by
  simpa [usesMonitor] using displayStmts_no_monitor t d _ h

theorem waitFlag_not_mem_displayStmts (t : List Char) (d : Nat) :
    Stmt.waitFlag ∉ displayStmts t d := fun h => by
  simpa [usesMonitor] using displayStmts_no_monitor t d _ h

/-- Refined step shape for invariant preservation: a step either leaves
the remaining statements unchanged (flag also unchanged, nothing emitted),
or consumes a `setFlag v` head setting the flag to `v`, or consumes an
`out` head emitting that text, or consumes some other head — and a
consumed `waitFlag` head implies the flag was true. -/
theorem LStep.step_shape {tid : TId} {f : Bool} {o : Option TId}
    {th : Thread} {f2 : Bool} {o2 : Option TId} {t2 : Thread}
    {e : List (TId × List Char)} (h : LStep tid f o th f2 o2 t2 e) :
    (t2.rest = th.rest ∧ f2 = f ∧ e = []) ∨
    (∃ v k, th.rest = Stmt.setFlag v :: k ∧ t2.rest = k ∧ f2 = v ∧
      e = []) ∨
    (∃ s k, th.rest = Stmt.out s :: k ∧ t2.rest = k ∧ f2 = f ∧
      e = [(tid, s)]) ∨
    (∃ s k, th.rest = s :: k ∧ t2.rest = k ∧ f2 = f ∧ e = [] ∧
      (∀ w : Bool, s ≠ Stmt.setFlag w) ∧ (∀ s3, s ≠ Stmt.out s3) ∧
      (s = Stmt.waitFlag → f = true)) := by
  cases h with
  | setFlagS f o v k => exact Or.inr (Or.inl ⟨_, _, rfl, rfl, rfl, rfl⟩)
  | outS f o s k => exact Or.inr (Or.inr (Or.inl ⟨_, _, rfl, rfl, rfl, rfl⟩))
  | sleepS f o n k =>
    exact Or.inr (Or.inr (Or.inr ⟨_, _, rfl, rfl, rfl, rfl,
      by intro w; simp, by intro s3; simp, by simp⟩))
  | lockS f k =>
    exact Or.inr (Or.inr (Or.inr ⟨_, _, rfl, rfl, rfl, rfl,
      by intro w; simp, by intro s3; simp, by simp⟩))
  | unlockS f k =>
    exact Or.inr (Or.inr (Or.inr ⟨_, _, rfl, rfl, rfl, rfl,
      by intro w; simp, by intro s3; simp, by simp⟩))
  | notifyS f o k =>
    exact Or.inr (Or.inr (Or.inr ⟨_, _, rfl, rfl, rfl, rfl,
      by intro w; simp, by intro s3; simp, by simp⟩))
  | waitPass k =>
    exact Or.inr (Or.inr (Or.inr ⟨_, _, rfl, rfl, rfl, rfl,
      by intro w; simp, by intro s3; simp, fun _ => rfl⟩))
  | waitBlock k => exact Or.inl ⟨rfl, rfl, rfl⟩
  | wakeS f o k => exact Or.inl ⟨rfl, rfl, rfl⟩
  | reacquire f k => exact Or.inl ⟨rfl, rfl, rfl⟩

/-- Dropping a non-`out` head does not change the emitted texts. -/
theorem emits_cons_not_out {s : Stmt} (k : List Stmt)
    (h : ∀ s3, s ≠ Stmt.out s3) : emits (s :: k) = emits k := by
  cases s with
  | out s3 => exact absurd rfl (h s3)
  | sleep n => simp [emits, outOf]
  | lock => simp [emits, outOf]
  | unlock => simp [emits, outOf]
  | waitFlag => simp [emits, outOf]
  | setFlag v => simp [emits, outOf]
  | notifyAll => simp [emits, outOf]

/-! #### Reachability facts generic in the initial configuration -/

theorem suffix_of_shape {r1 r2 p : List Stmt} (hsuf : r1 <:+ p)
    (hshape : r2 = r1 ∨ ∃ s, r1 = s :: r2) : r2 <:+ p := by
  rcases hshape with rfl | ⟨s, hs⟩
  · exact hsuf
  · exact List.IsSuffix.trans ⟨[s], hs.symm⟩ hsuf

/-- Along any run, each thread's remaining statements form a suffix of its
initial program. -/
theorem reach_suffix {init c : Config} (h : Reach init c) :
    c.ta.rest <:+ init.ta.rest ∧ c.tb.rest <:+ init.tb.rest ∧
      c.tc.rest <:+ init.tc.rest := by
  induction h with
  | refl => exact ⟨List.suffix_refl _, List.suffix_refl _, List.suffix_refl _⟩
  | tail h1 h2 ih =>
    cases h2 with
    | mk tid f o t e hl =>
      have hshape := hl.rest_shape
      cases tid with
      | a => exact ⟨suffix_of_shape ih.1 hshape, ih.2.1, ih.2.2⟩
      | b => exact ⟨ih.1, suffix_of_shape ih.2.1 hshape, ih.2.2⟩
      | o => exact ⟨ih.1, ih.2.1, suffix_of_shape ih.2.2 hshape⟩

/-- A list with a member the other list lacks is not a suffix of it. -/
theorem not_suffix_of_mem {x : Stmt} {l p : List Stmt} (hx : x ∈ l)
    (hp : x ∉ p) : ¬ l <:+ p := fun h => hp (h.subset hx)

/-! #### Facts about setFlag statements in the six programs -/

/-- In a program of the shape `xs ++ [setFlag true, notifyAll]` where `xs`
contains no `setFlag`, any suffix starting with a `setFlag` is exactly the
final `[setFlag true, notifyAll]`. -/
theorem suffix_setFlag_aux :
    ∀ xs : List Stmt, (∀ w : Bool, Stmt.setFlag w ∉ xs) →
      ∀ (v : Bool) (k : List Stmt),
        Stmt.setFlag v :: k <:+ xs ++ [Stmt.setFlag true, Stmt.notifyAll] →
        v = true ∧ k = [Stmt.notifyAll] := by
  intro xs
  induction xs with
  | nil =>
    intro _ v k h
    rcases List.suffix_cons_iff.mp h with heq | h2
    · simp only [List.nil_append, List.cons.injEq, Stmt.setFlag.injEq] at heq
      exact ⟨heq.1, heq.2⟩
    · rcases List.suffix_cons_iff.mp h2 with heq | h3
      · simp at heq
      · have := h3.length_le
        simp at this
  | cons x xs ih =>
    intro hxs v k h
    rcases List.suffix_cons_iff.mp h with heq | h2
    · exfalso
      simp only [List.cons.injEq] at heq
      exact hxs v (by rw [← heq.1]; exact List.mem_cons_self _ _)
    · exact ih (fun w hw => hxs w (List.mem_cons_of_mem _ hw)) v k h2

theorem monitorProgA_setFlag_pos {rock : List Char} {v : Bool}
    {k : List Stmt} (h : Stmt.setFlag v :: k <:+ monitorProgA rock) :
    v = true ∧ k = [Stmt.notifyAll] := by
  have heq : monitorProgA rock =
      (Stmt.out rockBanner ::
        (displayStmts rock TEXT_DELAY ++ [Stmt.out ['\n']])) ++
        [Stmt.setFlag true, Stmt.notifyAll] := by
    simp [monitorProgA]
  rw [heq] at h
  refine suffix_setFlag_aux _ ?_ v k h
  intro w hw
  rcases List.mem_cons.mp hw with heq2 | hw2
  · simp at heq2
  · rcases List.mem_append.mp hw2 with hw3 | hw3
    · exact setFlag_not_mem_displayStmts _ _ _ hw3
    · simp at hw3

theorem raceProgB_setFlag_pos {hamlet : List Char} {v : Bool}
    {k : List Stmt} (h : Stmt.setFlag v :: k <:+ raceProgB hamlet) :
    v = true ∧ k = [Stmt.notifyAll] := by
  have heq : raceProgB hamlet =
      (Stmt.out hamletBanner :: displayStmts hamlet TEXT_DELAY) ++
        [Stmt.setFlag true, Stmt.notifyAll] := by
    simp [raceProgB]
  rw [heq] at h
  refine suffix_setFlag_aux _ ?_ v k h
  intro w hw
  rcases List.mem_cons.mp hw with heq2 | hw2
  · simp at heq2
  · exact setFlag_not_mem_displayStmts _ _ _ hw2

theorem monitorProgA_setFlag_mem {rock : List Char} :
    Stmt.setFlag true ∈ monitorProgA rock := by
  simp [monitorProgA]

theorem monitorProgB_no_setFlag {hamlet : List Char} (v : Bool) :
    Stmt.setFlag v ∉ monitorProgB hamlet := by
  simp [monitorProgB, monitorTailB, setFlag_not_mem_displayStmts]

theorem monitorProgOrch_no_setFlag {rock hamlet : List Char} (v : Bool) :
    Stmt.setFlag v ∉ monitorProgOrch rock hamlet := by
  simp [monitorProgOrch]

theorem raceProgA_no_setFlag {rock : List Char} (v : Bool) :
    Stmt.setFlag v ∉ raceProgA rock := by
  simp [raceProgA, setFlag_not_mem_displayStmts]

theorem raceProgB_setFlag_mem {hamlet : List Char} :
    Stmt.setFlag true ∈ raceProgB hamlet := by
  simp [raceProgB]

theorem raceProgO_no_setFlag (v : Bool) : Stmt.setFlag v ∉ raceProgO := by
  simp [raceProgO, raceTailO]

theorem monitorProgA_no_lock {rock : List Char} :
    Stmt.lock ∉ monitorProgA rock := by
  simp [monitorProgA, lock_not_mem_displayStmts]

theorem monitorProgA_no_waitFlag {rock : List Char} :
    Stmt.waitFlag ∉ monitorProgA rock := by
  simp [monitorProgA, waitFlag_not_mem_displayStmts]

theorem raceProgB_no_lock {hamlet : List Char} :
    Stmt.lock ∉ raceProgB hamlet := by
  simp [raceProgB, lock_not_mem_displayStmts]

theorem raceProgB_no_waitFlag {hamlet : List Char} :
    Stmt.waitFlag ∉ raceProgB hamlet := by
  simp [raceProgB, waitFlag_not_mem_displayStmts]

theorem monitorTailB_no_waitFlag {hamlet : List Char} :
    Stmt.waitFlag ∉ monitorTailB hamlet := by
  simp [monitorTailB, waitFlag_not_mem_displayStmts]

theorem raceTailO_no_waitFlag : Stmt.waitFlag ∉ raceTailO := by
  simp [raceTailO]

/-! #### Facts about output traces -/

theorem anyB_append (l e : List (TId × List Char)) :
    anyB (l ++ e) = (anyB l || anyB e) := by
  simp [anyB, List.any_append]

theorem outsA_append (l e : List (TId × List Char)) :
    outsA (l ++ e) = outsA l ++ outsA e := by
  simp [outsA, List.filterMap_append]

theorem emits_cons_out (s : List Char) (k : List Stmt) :
    emits (Stmt.out s :: k) = s :: emits k := by
  simp [emits, outOf]

/-! #### The inductive invariant of the monitor demo -/

/-- Inductive invariant of `monitorTest` executions:
* `flagA`: once the flag is true, thread A has nothing left but (at most)
  its notification — in particular all of its output is already emitted;
* `pendA`: while the flag is false, thread A still has its `setFlag true`
  ahead of it;
* `bPast`: if thread B has passed its wait loop, the flag is true;
* `outB`: if thread B has written anything, the flag is true;
* `traceA`: thread A's emitted output so far, followed by the output still
  pending in its remaining statements, is exactly its program's output;
* `ownerA`: thread A never holds the mutex (it never acquires it). -/
structure MonInv (rock hamlet : List Char) (c : Config) : Prop where
  flagA : c.flag = true → c.ta.rest = [Stmt.notifyAll] ∨ c.ta.rest = []
  pendA : c.flag = false → Stmt.setFlag true ∈ c.ta.rest
  bPast : c.tb.rest <:+ monitorTailB hamlet → c.flag = true
  outB : anyB c.outs = true → c.flag = true
  traceA : outsA c.outs ++ emits c.ta.rest = emits (monitorProgA rock)
  ownerA : c.owner ≠ some TId.a

theorem monInv_holds (rock hamlet : List Char) :
    ∀ c : Config, Reach (monitorInit rock hamlet) c →
      MonInv rock hamlet c := by
  intro c h
  induction h with
  | refl =>
    refine ⟨?_, ?_, ?_, ?_, ?_, ?_⟩
    · intro hf; exact absurd hf (by simp [monitorInit])
    · intro _
      exact monitorProgA_setFlag_mem
    · intro hb
      exact absurd hb (not_suffix_of_mem
        (x := Stmt.waitFlag) (by simp [monitorInit, monitorProgB])
        monitorTailB_no_waitFlag)
    · intro hb; exact absurd hb (by simp [monitorInit, anyB, tagB])
    · simp [monitorInit, outsA, projA]
    · simp [monitorInit]
  | @tail cmid cfin h1 h2 ih =>
    have hsuf := reach_suffix h1
    cases h2 with
    | mk tid f o t e hl =>
      cases tid with
      | a =>
        have hlA : LStep TId.a cmid.flag cmid.owner cmid.ta f o t e := hl
        have hA : cmid.ta.rest <:+ monitorProgA rock := hsuf.1
        have hownerA : o ≠ some TId.a := by
          intro ho
          rcases hlA.owner_gain TId.a ho with hpre | ⟨_, hhead⟩
          · exact ih.ownerA hpre
          · rcases hhead with ⟨k, hk⟩ | ⟨k, hk⟩
            · exact monitorProgA_no_lock
                (hA.subset (by rw [hk]; exact List.mem_cons_self _ _))
            · exact monitorProgA_no_waitFlag
                (hA.subset (by rw [hk]; exact List.mem_cons_self _ _))
        rcases hlA.step_shape with
          ⟨hrest, hf2, he⟩ |
          ⟨v, k, hk, hrest, hf2, he⟩ |
          ⟨s, k, hk, hrest, hf2, he⟩ |
          ⟨s, k, hk, hrest, hf2, he, hnsf, hnout, _⟩
        · -- A pauses inside a wait (impossible here but harmless):
          -- nothing observable changes.
          refine ⟨?_, ?_, ?_, ?_, ?_, hownerA⟩
          · show f = true → t.rest = [Stmt.notifyAll] ∨ t.rest = []
            intro hf; rw [hrest]
            exact ih.flagA (by rw [← hf2]; exact hf)
          · show f = false → Stmt.setFlag true ∈ t.rest
            intro hf; rw [hrest]
            exact ih.pendA (by rw [← hf2]; exact hf)
          · show cmid.tb.rest <:+ monitorTailB hamlet → f = true
            intro hb; rw [hf2]; exact ih.bPast hb
          · show anyB (cmid.outs ++ e) = true → f = true
            intro hb; rw [he, List.append_nil] at hb
            rw [hf2]; exact ih.outB hb
          · show outsA (cmid.outs ++ e) ++ emits t.rest = emits (monitorProgA rock)
            rw [he, List.append_nil, hrest]; exact ih.traceA
        · -- A executes its `setFlag true` (position forced by its program).
          have hpos := monitorProgA_setFlag_pos (by rw [← hk]; exact hA)
          refine ⟨?_, ?_, ?_, ?_, ?_, hownerA⟩
          · show f = true → t.rest = [Stmt.notifyAll] ∨ t.rest = []
            intro _; left; rw [hrest, hpos.2]
          · show f = false → Stmt.setFlag true ∈ t.rest
            intro hf; rw [hf2, hpos.1] at hf; cases hf
          · show cmid.tb.rest <:+ monitorTailB hamlet → f = true
            intro _; rw [hf2, hpos.1]
          · show anyB (cmid.outs ++ e) = true → f = true
            intro _; rw [hf2, hpos.1]
          · show outsA (cmid.outs ++ e) ++ emits t.rest = emits (monitorProgA rock)
            have htr := ih.traceA
            rw [hk] at htr
            rw [he, List.append_nil, hrest]
            simpa [emits, outOf] using htr
        · -- A writes one of its texts.
          refine ⟨?_, ?_, ?_, ?_, ?_, hownerA⟩
          · show f = true → t.rest = [Stmt.notifyAll] ∨ t.rest = []
            intro hf
            rcases ih.flagA (by rw [← hf2]; exact hf) with h1 | h1 <;>
              rw [hk] at h1 <;> simp at h1
          · show f = false → Stmt.setFlag true ∈ t.rest
            intro hf; rw [hrest]
            have hmem := ih.pendA (by rw [← hf2]; exact hf)
            rw [hk] at hmem
            rcases List.mem_cons.mp hmem with heq | hm
            · simp at heq
            · exact hm
          · show cmid.tb.rest <:+ monitorTailB hamlet → f = true
            intro hb; rw [hf2]; exact ih.bPast hb
          · show anyB (cmid.outs ++ e) = true → f = true
            intro hb
            rw [he, anyB_append] at hb
            have hone : anyB [(TId.a, s)] = false := rfl
            rw [hone, Bool.or_false] at hb
            rw [hf2]; exact ih.outB hb
          · show outsA (cmid.outs ++ e) ++ emits t.rest = emits (monitorProgA rock)
            have htr := ih.traceA
            rw [hk, emits_cons_out] at htr
            rw [he, outsA_append, hrest]
            have hsingle : outsA [(TId.a, s)] = [s] := rfl
            rw [hsingle, List.append_assoc]
            simpa using htr
        · -- A consumes some other statement (sleep or notifyAll here).
          refine ⟨?_, ?_, ?_, ?_, ?_, hownerA⟩
          · show f = true → t.rest = [Stmt.notifyAll] ∨ t.rest = []
            intro hf
            rcases ih.flagA (by rw [← hf2]; exact hf) with h1 | h1
            · rw [hk] at h1
              simp only [List.cons.injEq] at h1
              right
              rw [hrest, h1.2]
            · rw [hk] at h1; simp at h1
          · show f = false → Stmt.setFlag true ∈ t.rest
            intro hf; rw [hrest]
            have hmem := ih.pendA (by rw [← hf2]; exact hf)
            rw [hk] at hmem
            rcases List.mem_cons.mp hmem with heq | hm
            · exact absurd heq.symm (hnsf true)
            · exact hm
          · show cmid.tb.rest <:+ monitorTailB hamlet → f = true
            intro hb; rw [hf2]; exact ih.bPast hb
          · show anyB (cmid.outs ++ e) = true → f = true
            intro hb; rw [he, List.append_nil] at hb
            rw [hf2]; exact ih.outB hb
          · show outsA (cmid.outs ++ e) ++ emits t.rest = emits (monitorProgA rock)
            have htr := ih.traceA
            rw [hk, emits_cons_not_out k hnout] at htr
            rw [he, List.append_nil, hrest]
            exact htr
      | b =>
        have hlB : LStep TId.b cmid.flag cmid.owner cmid.tb f o t e := hl
        have hB : cmid.tb.rest <:+ monitorProgB hamlet := hsuf.2.1
        have hownerA : o ≠ some TId.a := by
          intro ho
          rcases hlB.owner_gain TId.a ho with hpre | ⟨hab, _⟩
          · exact ih.ownerA hpre
          · cases hab
        rcases hlB.step_shape with
          ⟨hrest, hf2, he⟩ |
          ⟨v, k, hk, hrest, hf2, he⟩ |
          ⟨s, k, hk, hrest, hf2, he⟩ |
          ⟨s, k, hk, hrest, hf2, he, hnsf, hnout, hwf⟩
        · refine ⟨?_, ?_, ?_, ?_, ?_, hownerA⟩
          · show f = true → cmid.ta.rest = [Stmt.notifyAll] ∨ cmid.ta.rest = []
            intro hf; exact ih.flagA (by rw [← hf2]; exact hf)
          · show f = false → Stmt.setFlag true ∈ cmid.ta.rest
            intro hf; exact ih.pendA (by rw [← hf2]; exact hf)
          · show t.rest <:+ monitorTailB hamlet → f = true
            intro hb; rw [hrest] at hb; rw [hf2]; exact ih.bPast hb
          · show anyB (cmid.outs ++ e) = true → f = true
            intro hb; rw [he, List.append_nil] at hb
            rw [hf2]; exact ih.outB hb
          · show outsA (cmid.outs ++ e) ++ emits cmid.ta.rest = emits (monitorProgA rock)
            rw [he, List.append_nil]; exact ih.traceA
        · exact absurd
            (hB.subset (by rw [hk]; exact List.mem_cons_self _ _))
            (monitorProgB_no_setFlag v)
        · -- B writes: it must already be past its wait, so the flag is true.
          have hbp : cmid.tb.rest <:+ monitorTailB hamlet := by
            rcases List.suffix_cons_iff.mp hB with h1 | h2
            · rw [hk] at h1; simp [monitorProgB] at h1
            · rcases List.suffix_cons_iff.mp h2 with h3 | h4
              · rw [hk] at h3; simp at h3
              · exact h4
          have hcf : cmid.flag = true := ih.bPast hbp
          refine ⟨?_, ?_, ?_, ?_, ?_, hownerA⟩
          · show f = true → cmid.ta.rest = [Stmt.notifyAll] ∨ cmid.ta.rest = []
            intro _; exact ih.flagA hcf
          · show f = false → Stmt.setFlag true ∈ cmid.ta.rest
            intro hf
            rw [hf2, hcf] at hf
            cases hf
          · show t.rest <:+ monitorTailB hamlet → f = true
            intro _; rw [hf2]; exact hcf
          · show anyB (cmid.outs ++ e) = true → f = true
            intro _; rw [hf2]; exact hcf
          · show outsA (cmid.outs ++ e) ++ emits cmid.ta.rest = emits (monitorProgA rock)
            rw [he, outsA_append]
            simpa [outsA, projA] using ih.traceA
        · refine ⟨?_, ?_, ?_, ?_, ?_, hownerA⟩
          · show f = true → cmid.ta.rest = [Stmt.notifyAll] ∨ cmid.ta.rest = []
            intro hf; exact ih.flagA (by rw [← hf2]; exact hf)
          · show f = false → Stmt.setFlag true ∈ cmid.ta.rest
            intro hf; exact ih.pendA (by rw [← hf2]; exact hf)
          · show t.rest <:+ monitorTailB hamlet → f = true
            intro hb
            rw [hrest] at hb
            rcases List.suffix_cons_iff.mp hB with h1 | h2
            · rw [hk] at h1
              injection h1 with _ h1b
              rw [h1b] at hb
              exact absurd hb (not_suffix_of_mem (List.mem_cons_self _ _)
                monitorTailB_no_waitFlag)
            · rcases List.suffix_cons_iff.mp h2 with h3 | h4
              · rw [hk] at h3
                injection h3 with h3a _
                rw [hf2]; exact hwf h3a
              · rw [hf2]; exact ih.bPast h4
          · show anyB (cmid.outs ++ e) = true → f = true
            intro hb; rw [he, List.append_nil] at hb
            rw [hf2]; exact ih.outB hb
          · show outsA (cmid.outs ++ e) ++ emits cmid.ta.rest = emits (monitorProgA rock)
            rw [he, List.append_nil]; exact ih.traceA
      | o =>
        have hlO : LStep TId.o cmid.flag cmid.owner cmid.tc f o t e := hl
        have hownerA : o ≠ some TId.a := by
          intro ho
          rcases hlO.owner_gain TId.a ho with hpre | ⟨hab, _⟩
          · exact ih.ownerA hpre
          · cases hab
        rcases hlO.step_shape with
          ⟨hrest, hf2, he⟩ |
          ⟨v, k, hk, hrest, hf2, he⟩ |
          ⟨s, k, hk, hrest, hf2, he⟩ |
          ⟨s, k, hk, hrest, hf2, he, hnsf, hnout, hwf⟩
        · refine ⟨?_, ?_, ?_, ?_, ?_, hownerA⟩
          · show f = true → cmid.ta.rest = [Stmt.notifyAll] ∨ cmid.ta.rest = []
            intro hf; exact ih.flagA (by rw [← hf2]; exact hf)
          · show f = false → Stmt.setFlag true ∈ cmid.ta.rest
            intro hf; exact ih.pendA (by rw [← hf2]; exact hf)
          · show cmid.tb.rest <:+ monitorTailB hamlet → f = true
            intro hb; rw [hf2]; exact ih.bPast hb
          · show anyB (cmid.outs ++ e) = true → f = true
            intro hb; rw [he, List.append_nil] at hb
            rw [hf2]; exact ih.outB hb
          · show outsA (cmid.outs ++ e) ++ emits cmid.ta.rest = emits (monitorProgA rock)
            rw [he, List.append_nil]; exact ih.traceA
        · exact absurd
            (hsuf.2.2.subset (by rw [hk]; exact List.mem_cons_self _ _))
            (monitorProgOrch_no_setFlag v)
        · refine ⟨?_, ?_, ?_, ?_, ?_, hownerA⟩
          · show f = true → cmid.ta.rest = [Stmt.notifyAll] ∨ cmid.ta.rest = []
            intro hf; exact ih.flagA (by rw [← hf2]; exact hf)
          · show f = false → Stmt.setFlag true ∈ cmid.ta.rest
            intro hf; exact ih.pendA (by rw [← hf2]; exact hf)
          · show cmid.tb.rest <:+ monitorTailB hamlet → f = true
            intro hb; rw [hf2]; exact ih.bPast hb
          · show anyB (cmid.outs ++ e) = true → f = true
            intro hb
            rw [he, anyB_append] at hb
            have hone : anyB [(TId.o, s)] = false := rfl
            rw [hone, Bool.or_false] at hb
            rw [hf2]; exact ih.outB hb
          · show outsA (cmid.outs ++ e) ++ emits cmid.ta.rest = emits (monitorProgA rock)
            rw [he, outsA_append]
            simpa [outsA, projA] using ih.traceA
        · refine ⟨?_, ?_, ?_, ?_, ?_, hownerA⟩
          · show f = true → cmid.ta.rest = [Stmt.notifyAll] ∨ cmid.ta.rest = []
            intro hf; exact ih.flagA (by rw [← hf2]; exact hf)
          · show f = false → Stmt.setFlag true ∈ cmid.ta.rest
            intro hf; exact ih.pendA (by rw [← hf2]; exact hf)
          · show cmid.tb.rest <:+ monitorTailB hamlet → f = true
            intro hb; rw [hf2]; exact ih.bPast hb
          · show anyB (cmid.outs ++ e) = true → f = true
            intro hb; rw [he, List.append_nil] at hb
            rw [hf2]; exact ih.outB hb
          · show outsA (cmid.outs ++ e) ++ emits cmid.ta.rest = emits (monitorProgA rock)
            rw [he, List.append_nil]; exact ih.traceA

/-! #### Output ordering in the monitor demo -/

theorem anyA_append (l e : List (TId × List Char)) :
    anyA (l ++ e) = (anyA l || anyA e) := by
  simp [anyA, List.any_append]

theorem anyA_single (x : TId × List Char) : anyA [x] = tagA x := by
  simp [anyA]

theorem anyB_of_split (pre post l : List (TId × List Char))
    (h : l = pre ++ post) (hb : anyB pre = true) : anyB l = true := by
  subst h
  rw [anyB_append, hb, Bool.true_or]

theorem orderOK_of_noB (l : List (TId × List Char)) (h : anyB l = false) :
    ∀ pre post, l = pre ++ post → anyB pre = true → anyA post = false := by
  intro pre post hsplit hb
  have hc := anyB_of_split pre post l hsplit hb
  rw [h] at hc
  exact Bool.noConfusion hc

/-- Appending one event preserves the no-A-event-after-a-B-event property,
provided an A event is appended only while no B event is present yet. -/
theorem orderOK_append_one (l : List (TId × List Char))
    (x : TId × List Char)
    (hl : ∀ pre post, l = pre ++ post → anyB pre = true → anyA post = false)
    (hx : tagA x = true → anyB l = false) :
    ∀ pre post, l ++ [x] = pre ++ post → anyB pre = true →
      anyA post = false := by
  intro pre post hsplit hb
  rcases List.append_eq_append_iff.mp hsplit with
    ⟨mid, hprem, hxm⟩ | ⟨mid, hlm, hpostm⟩
  · -- pre = l ++ mid and [x] = mid ++ post
    rcases mid with _ | ⟨y, mid2⟩
    · -- the split point is exactly at the appended event
      rw [List.append_nil] at hprem
      rw [List.nil_append] at hxm
      have hpost : post = [x] := hxm.symm
      subst hprem
      rw [hpost, anyA_single]
      cases htag : tagA x
      · rfl
      · rw [hx htag] at hb
        exact Bool.noConfusion hb
    · -- the split point is after the appended event: post is empty
      have h2 : mid2 ++ post = [] := by
        have h3 := hxm
        simp only [List.cons_append, List.cons.injEq] at h3
        exact h3.2.symm
      have hpost : post = [] := (List.append_eq_nil.mp h2).2
      rw [hpost]
      rfl
  · -- the split point is inside l: post = mid ++ [x]
    rw [hpostm, anyA_append, anyA_single]
    have hmid : anyA mid = false := hl pre mid hlm hb
    have htagA : tagA x = false := by
      cases htag : tagA x
      · rfl
      · have hnb := hx htag
        have hc : anyB l = true := anyB_of_split pre mid l hlm hb
        rw [hnb] at hc
        exact Bool.noConfusion hc
    rw [hmid, htagA]
    rfl

/-- In every reachable configuration of the monitor demo, no output event
of thread A occurs after an output event of thread B. -/
theorem monitor_orderOK (rock hamlet : List Char) :
    ∀ c, Reach (monitorInit rock hamlet) c →
      ∀ pre post, c.outs = pre ++ post → anyB pre = true →
        anyA post = false := by
  intro c h
  induction h with
  | refl => exact orderOK_of_noB _ rfl
  | @tail cmid cfin h1 h2 ih =>
    have hinv := monInv_holds rock hamlet cmid h1
    cases h2 with
    | mk tid f o t e hl =>
      rcases hl.step_shape with
        ⟨_, _, he⟩ | ⟨v, k, hk, _, _, he⟩ | ⟨s, k, hk, hrest, hf2, he⟩ |
        ⟨s, k, hk, _, _, he, _, _, _⟩
      · intro pre post hsplit hb
        rw [stepApply_outs, he, List.append_nil] at hsplit
        exact ih pre post hsplit hb
      · intro pre post hsplit hb
        rw [stepApply_outs, he, List.append_nil] at hsplit
        exact ih pre post hsplit hb
      · intro pre post hsplit hb
        rw [stepApply_outs, he] at hsplit
        refine orderOK_append_one cmid.outs (tid, s) ih ?_ pre post hsplit hb
        intro htag
        cases tid with
        | a =>
          cases hab : anyB cmid.outs
          · rfl
          · exfalso
            have hf := hinv.outB hab
            have hk2 : cmid.ta.rest = Stmt.out s :: k := hk
            rcases hinv.flagA hf with h3 | h3 <;> rw [h3] at hk2 <;>
              simp at hk2
        | b => exact Bool.noConfusion htag
        | o => exact Bool.noConfusion htag
      · intro pre post hsplit hb
        rw [stepApply_outs, he, List.append_nil] at hsplit
        exact ih pre post hsplit hb

/-- C1: in `monitorTest`, for every execution, thread B writes nothing
until thread A has produced its entire output (banner, full first text and
final newline), and no output of thread A ever follows any output of
thread B: thread A's whole output precedes all of thread B's output,
regardless of scheduler interleaving, spurious wakeups included. -/
theorem monitor_output_ordering (rock hamlet : List Char) (c : Config)
    (h : Reach (monitorInit rock hamlet) c) :
    (∀ pre post, c.outs = pre ++ post → anyB pre = true →
      anyA post = false) ∧
    (anyB c.outs = true → outsA c.outs = emits (monitorProgA rock)) := by
  refine ⟨monitor_orderOK rock hamlet c h, ?_⟩
  intro hb
  have hinv := monInv_holds rock hamlet c h
  have hf := hinv.outB hb
  have htr := hinv.traceA
  rcases hinv.flagA hf with h1 | h1 <;> rw [h1] at htr <;>
    simpa [emits, outOf] using htr

/-! #### The inductive invariant of the unsynchronized demo -/

theorem raceProgA_no_lock {rock : List Char} :
    Stmt.lock ∉ raceProgA rock := by
  simp [raceProgA, lock_not_mem_displayStmts]

theorem raceProgA_no_waitFlag {rock : List Char} :
    Stmt.waitFlag ∉ raceProgA rock := by
  simp [raceProgA, waitFlag_not_mem_displayStmts]

theorem raceProgO_no_setFlag_mem : ∀ v : Bool, Stmt.setFlag v ∉ raceProgO :=
  raceProgO_no_setFlag

/-- Inductive invariant of `raceTest` executions:
* `pendB`: while the flag is false, thread B still has its `setFlag true`
  ahead of it;
* `oPast`: if the orchestrator has passed its wait loop, the flag is true;
* `ownerA`, `ownerB`: neither worker thread ever holds the mutex (neither
  ever acquires it — in particular thread B's flag write is not protected
  by the mutex). -/
structure RaceInv (rock hamlet : List Char) (c : Config) : Prop where
  pendB : c.flag = false → Stmt.setFlag true ∈ c.tb.rest
  oPast : c.tc.rest <:+ raceTailO → c.flag = true
  ownerA : c.owner ≠ some TId.a
  ownerB : c.owner ≠ some TId.b

theorem raceInv_holds (rock hamlet : List Char) :
    ∀ c : Config, Reach (raceInit rock hamlet) c → RaceInv rock hamlet c := by
  intro c h
  induction h with
  | refl =>
    refine ⟨?_, ?_, ?_, ?_⟩
    · intro _
      exact raceProgB_setFlag_mem
    · intro hb
      exact absurd hb (not_suffix_of_mem
        (x := Stmt.waitFlag) (by simp [raceInit, raceProgO])
        raceTailO_no_waitFlag)
    · simp [raceInit]
    · simp [raceInit]
  | @tail cmid cfin h1 h2 ih =>
    have hsuf := reach_suffix h1
    cases h2 with
    | mk tid f o t e hl =>
      cases tid with
      | a =>
        have hlA : LStep TId.a cmid.flag cmid.owner cmid.ta f o t e := hl
        have hA : cmid.ta.rest <:+ raceProgA rock := hsuf.1
        have hownerA : o ≠ some TId.a := by
          intro ho
          rcases hlA.owner_gain TId.a ho with hpre | ⟨_, hhead⟩
          · exact ih.ownerA hpre
          · rcases hhead with ⟨k, hk⟩ | ⟨k, hk⟩
            · exact raceProgA_no_lock
                (hA.subset (by rw [hk]; exact List.mem_cons_self _ _))
            · exact raceProgA_no_waitFlag
                (hA.subset (by rw [hk]; exact List.mem_cons_self _ _))
        have hownerB : o ≠ some TId.b := by
          intro ho
          rcases hlA.owner_gain TId.b ho with hpre | ⟨hba, _⟩
          · exact ih.ownerB hpre
          · cases hba
        rcases hlA.step_shape with
          ⟨hrest, hf2, he⟩ |
          ⟨v, k, hk, hrest, hf2, he⟩ |
          ⟨s, k, hk, hrest, hf2, he⟩ |
          ⟨s, k, hk, hrest, hf2, he, hnsf, hnout, _⟩
        · exact ⟨fun hf => ih.pendB (by rw [← hf2]; exact hf),
            fun hb => by rw [hf2]; exact ih.oPast hb, hownerA, hownerB⟩
        · exact absurd
            (hA.subset (by rw [hk]; exact List.mem_cons_self _ _))
            (raceProgA_no_setFlag v)
        · exact ⟨fun hf => ih.pendB (by rw [← hf2]; exact hf),
            fun hb => by rw [hf2]; exact ih.oPast hb, hownerA, hownerB⟩
        · exact ⟨fun hf => ih.pendB (by rw [← hf2]; exact hf),
            fun hb => by rw [hf2]; exact ih.oPast hb, hownerA, hownerB⟩
      | b =>
        have hlB : LStep TId.b cmid.flag cmid.owner cmid.tb f o t e := hl
        have hB : cmid.tb.rest <:+ raceProgB hamlet := hsuf.2.1
        have hownerA : o ≠ some TId.a := by
          intro ho
          rcases hlB.owner_gain TId.a ho with hpre | ⟨hab, _⟩
          · exact ih.ownerA hpre
          · cases hab
        have hownerB : o ≠ some TId.b := by
          intro ho
          rcases hlB.owner_gain TId.b ho with hpre | ⟨_, hhead⟩
          · exact ih.ownerB hpre
          · rcases hhead with ⟨k, hk⟩ | ⟨k, hk⟩
            · exact raceProgB_no_lock
                (hB.subset (by rw [hk]; exact List.mem_cons_self _ _))
            · exact raceProgB_no_waitFlag
                (hB.subset (by rw [hk]; exact List.mem_cons_self _ _))
        rcases hlB.step_shape with
          ⟨hrest, hf2, he⟩ |
          ⟨v, k, hk, hrest, hf2, he⟩ |
          ⟨s, k, hk, hrest, hf2, he⟩ |
          ⟨s, k, hk, hrest, hf2, he, hnsf, hnout, _⟩
        · refine ⟨?_, ?_, hownerA, hownerB⟩
          · show f = false → Stmt.setFlag true ∈ t.rest
            intro hf; rw [hrest]
            exact ih.pendB (by rw [← hf2]; exact hf)
          · show cmid.tc.rest <:+ raceTailO → f = true
            intro hb; rw [hf2]; exact ih.oPast hb
        · have hpos := raceProgB_setFlag_pos (by rw [← hk]; exact hB)
          refine ⟨?_, ?_, hownerA, hownerB⟩
          · show f = false → Stmt.setFlag true ∈ t.rest
            intro hf; rw [hf2, hpos.1] at hf; cases hf
          · show cmid.tc.rest <:+ raceTailO → f = true
            intro _; rw [hf2, hpos.1]
        · refine ⟨?_, ?_, hownerA, hownerB⟩
          · show f = false → Stmt.setFlag true ∈ t.rest
            intro hf; rw [hrest]
            have hmem := ih.pendB (by rw [← hf2]; exact hf)
            rw [hk] at hmem
            rcases List.mem_cons.mp hmem with heq | hm
            · simp at heq
            · exact hm
          · show cmid.tc.rest <:+ raceTailO → f = true
            intro hb; rw [hf2]; exact ih.oPast hb
        · refine ⟨?_, ?_, hownerA, hownerB⟩
          · show f = false → Stmt.setFlag true ∈ t.rest
            intro hf; rw [hrest]
            have hmem := ih.pendB (by rw [← hf2]; exact hf)
            rw [hk] at hmem
            rcases List.mem_cons.mp hmem with heq | hm
            · exact absurd heq.symm (hnsf true)
            · exact hm
          · show cmid.tc.rest <:+ raceTailO → f = true
            intro hb; rw [hf2]; exact ih.oPast hb
      | o =>
        have hlO : LStep TId.o cmid.flag cmid.owner cmid.tc f o t e := hl
        have hO : cmid.tc.rest <:+ raceProgO := hsuf.2.2
        have hownerA : o ≠ some TId.a := by
          intro ho
          rcases hlO.owner_gain TId.a ho with hpre | ⟨hao, _⟩
          · exact ih.ownerA hpre
          · cases hao
        have hownerB : o ≠ some TId.b := by
          intro ho
          rcases hlO.owner_gain TId.b ho with hpre | ⟨hbo, _⟩
          · exact ih.ownerB hpre
          · cases hbo
        rcases hlO.step_shape with
          ⟨hrest, hf2, he⟩ |
          ⟨v, k, hk, hrest, hf2, he⟩ |
          ⟨s, k, hk, hrest, hf2, he⟩ |
          ⟨s, k, hk, hrest, hf2, he, hnsf, hnout, hwf⟩
        · refine ⟨?_, ?_, hownerA, hownerB⟩
          · show f = false → Stmt.setFlag true ∈ cmid.tb.rest
            intro hf; exact ih.pendB (by rw [← hf2]; exact hf)
          · show t.rest <:+ raceTailO → f = true
            intro hb; rw [hrest] at hb; rw [hf2]; exact ih.oPast hb
        · exact absurd
            (hO.subset (by rw [hk]; exact List.mem_cons_self _ _))
            (raceProgO_no_setFlag v)
        · refine ⟨?_, ?_, hownerA, hownerB⟩
          · show f = false → Stmt.setFlag true ∈ cmid.tb.rest
            intro hf; exact ih.pendB (by rw [← hf2]; exact hf)
          · show t.rest <:+ raceTailO → f = true
            intro hb
            rw [hrest] at hb
            rcases List.suffix_cons_iff.mp hO with h3 | h4
            · rw [hk] at h3; simp [raceProgO] at h3
            · rcases List.suffix_cons_iff.mp h4 with h5 | h6
              · rw [hk] at h5; simp at h5
              · rw [hf2]; exact ih.oPast h6
        · refine ⟨?_, ?_, hownerA, hownerB⟩
          · show f = false → Stmt.setFlag true ∈ cmid.tb.rest
            intro hf; exact ih.pendB (by rw [← hf2]; exact hf)
          · show t.rest <:+ raceTailO → f = true
            intro hb
            rw [hrest] at hb
            rcases List.suffix_cons_iff.mp hO with h3 | h4
            · rw [hk] at h3
              injection h3 with _ h3b
              rw [h3b] at hb
              exact absurd hb (not_suffix_of_mem (List.mem_cons_self _ _)
                raceTailO_no_waitFlag)
            · rcases List.suffix_cons_iff.mp h4 with h5 | h6
              · rw [hk] at h5
                injection h5 with h5a _
                rw [hf2]; exact hwf h5a
              · rw [hf2]; exact ih.oPast h6

/-! #### Flag monotonicity and write values -/

theorem mem_cons_head {l : List Stmt} {s : Stmt} {k : List Stmt}
    (h : l = s :: k) : s ∈ l := by
  rw [h]; exact List.mem_cons_self _ _

/-- In the monitor demo the shared flag, once true, stays true across any
step: every `setFlag` statement any thread can reach writes `true`. -/
theorem monitor_flag_mono (rock hamlet : List Char) (c c2 : Config)
    (hr : Reach (monitorInit rock hamlet) c) (hs : Step c c2)
    (hf : c.flag = true) : c2.flag = true := by
  have hsuf := reach_suffix hr
  cases hs with
  | mk tid f o t e hl =>
    rcases hl.flag_shape with h1 | ⟨v, k, hk, h2, _⟩
    · rw [stepApply_flag, h1]; exact hf
    · rw [stepApply_flag, h2]
      cases tid with
      | a => exact (monitorProgA_setFlag_pos (by rw [← hk]; exact hsuf.1)).1
      | b =>
        exact absurd
          (hsuf.2.1.subset (mem_cons_head hk))
          (monitorProgB_no_setFlag v)
      | o =>
        exact absurd
          (hsuf.2.2.subset (mem_cons_head hk))
          (monitorProgOrch_no_setFlag v)

/-- Same for the unsynchronized demo. -/
theorem race_flag_mono (rock hamlet : List Char) (c c2 : Config)
    (hr : Reach (raceInit rock hamlet) c) (hs : Step c c2)
    (hf : c.flag = true) : c2.flag = true := by
  have hsuf := reach_suffix hr
  cases hs with
  | mk tid f o t e hl =>
    rcases hl.flag_shape with h1 | ⟨v, k, hk, h2, _⟩
    · rw [stepApply_flag, h1]; exact hf
    · rw [stepApply_flag, h2]
      cases tid with
      | a =>
        exact absurd
          (hsuf.1.subset (mem_cons_head hk))
          (raceProgA_no_setFlag v)
      | b => exact (raceProgB_setFlag_pos (by rw [← hk]; exact hsuf.2.1)).1
      | o =>
        exact absurd
          (hsuf.2.2.subset (mem_cons_head hk))
          (raceProgO_no_setFlag v)

/-- In the monitor demo, every `setFlag` statement that is about to be
executed writes `true`. -/
theorem monitor_writes_true (rock hamlet : List Char) (c : Config)
    (hr : Reach (monitorInit rock hamlet) c) (tid : TId) (v : Bool)
    (k : List Stmt) (hk : (c.thr tid).rest = Stmt.setFlag v :: k) :
    v = true := by
  have hsuf := reach_suffix hr
  cases tid with
  | a => exact (monitorProgA_setFlag_pos (by rw [← hk]; exact hsuf.1)).1
  | b =>
    exact absurd
      (hsuf.2.1.subset (mem_cons_head hk))
      (monitorProgB_no_setFlag v)
  | o =>
    exact absurd
      (hsuf.2.2.subset (mem_cons_head hk))
      (monitorProgOrch_no_setFlag v)

/-- Same for the unsynchronized demo. -/
theorem race_writes_true (rock hamlet : List Char) (c : Config)
    (hr : Reach (raceInit rock hamlet) c) (tid : TId) (v : Bool)
    (k : List Stmt) (hk : (c.thr tid).rest = Stmt.setFlag v :: k) :
    v = true := by
  have hsuf := reach_suffix hr
  cases tid with
  | a =>
    exact absurd
      (hsuf.1.subset (mem_cons_head hk))
      (raceProgA_no_setFlag v)
  | b => exact (raceProgB_setFlag_pos (by rw [← hk]; exact hsuf.2.1)).1
  | o =>
    exact absurd
      (hsuf.2.2.subset (mem_cons_head hk))
      (raceProgO_no_setFlag v)

/-! #### Counting setFlag statements -/

/-- Is a statement a write to the completion flag? -/
def isSetFlag : Stmt → Bool
  | Stmt.setFlag _ => true
  | _ => false

/-- Number of flag writes a statement list performs. -/
def setFlagCount (p : List Stmt) : Nat := p.countP isSetFlag

theorem setFlagCount_displayStmts (t : List Char) (d : Nat) :
    List.countP isSetFlag (displayStmts t d) = 0 := by
  induction t with
  | nil => rfl
  | cons c cs ih =>
    simp only [displayStmts, displayTextSlowly, List.map_cons,
      List.countP_cons, evStmt, isSetFlag] at ih ⊢
    simpa using ih

/-! #### Total sleeping time of a program -/

theorem sleepTotal_displayStmts (t : List Char) (d : Nat) :
    sleepTotal (displayStmts t d) = t.length * d := by
  induction t with
  | nil => simp [sleepTotal, displayStmts, displayTextSlowly]
  | cons c cs ih =>
    simp only [sleepTotal, displayStmts, displayTextSlowly, List.map_cons,
      List.sum_cons, evStmt] at ih ⊢
    rw [ih]
    simp [List.length_cons, Nat.succ_mul]
    omega

/-! #### Claims about the demos -/

/-- C2: a waiter on the completion flag (the orchestrator of `raceTest`
and thread B of `monitorTest` both execute the same `waitFlag` construct)
passes its wait loop only when it observes the flag true while holding the
lock; if the flag is false, a running waiter at the wait can only
re-enter the blocked wait (releasing the lock), never proceed.  Moreover,
at the system level: in any reachable configuration of either demo, if the
waiter is past its wait loop, the flag is true. -/
theorem wait_discipline :
    (∀ (tid : TId) (f : Bool) (o : Option TId) (m : Mode) (k : List Stmt)
        (f2 : Bool) (o2 : Option TId) (t2 : Thread)
        (e : List (TId × List Char)),
      LStep tid f o ⟨Stmt.waitFlag :: k, m⟩ f2 o2 t2 e →
        (t2.rest ≠ Stmt.waitFlag :: k →
          f = true ∧ t2.rest = k ∧ o = some tid) ∧
        (f = false → m = Mode.run →
          t2 = ⟨Stmt.waitFlag :: k, Mode.blocked⟩ ∧ o2 = none)) ∧
    (∀ rock hamlet c, Reach (monitorInit rock hamlet) c →
      c.tb.rest <:+ monitorTailB hamlet → c.flag = true) ∧
    (∀ rock hamlet c, Reach (raceInit rock hamlet) c →
      c.tc.rest <:+ raceTailO → c.flag = true) := by
  refine ⟨?_, ?_, ?_⟩
  · intro tid f o m k f2 o2 t2 e h
    cases h with
    | waitPass _ =>
      refine ⟨fun _ => ⟨rfl, rfl, rfl⟩, ?_⟩
      intro hf
      exact absurd hf (by simp)
    | waitBlock _ =>
      refine ⟨fun hne => absurd rfl hne, fun _ _ => ⟨rfl, rfl⟩⟩
    | wakeS _ _ _ =>
      refine ⟨fun hne => absurd rfl hne, ?_⟩
      intro _ hm
      exact absurd hm (by simp)
    | reacquire _ _ =>
      refine ⟨fun hne => absurd rfl hne, ?_⟩
      intro _ hm
      exact absurd hm (by simp)
  · intro rock hamlet c h
    exact (monInv_holds rock hamlet c h).bPast
  · intro rock hamlet c h
    exact (raceInv_holds rock hamlet c h).oPast

/-- C3 (evidence for the code bug): in both demos the signalling thread
(thread A of `monitorTest`, thread B of `raceTest`) contains the
`setFlag true` write but performs no lock acquisition anywhere — its
program has no `lock` and no `waitFlag` — and in every reachable
configuration it does not hold the mutex.  So the flag write happens
without holding the paired mutex, while the waiting side does access the
flag only under the lock (see `wait_discipline`). -/
theorem flag_write_without_mutex (rock hamlet : List Char) :
    (Stmt.setFlag true ∈ monitorProgA rock ∧
      Stmt.lock ∉ monitorProgA rock ∧
      Stmt.waitFlag ∉ monitorProgA rock) ∧
    (Stmt.setFlag true ∈ raceProgB hamlet ∧
      Stmt.lock ∉ raceProgB hamlet ∧
      Stmt.waitFlag ∉ raceProgB hamlet) ∧
    (∀ c, Reach (monitorInit rock hamlet) c → c.owner ≠ some TId.a) ∧
    (∀ c, Reach (raceInit rock hamlet) c → c.owner ≠ some TId.b) := by
  refine ⟨⟨monitorProgA_setFlag_mem, monitorProgA_no_lock,
      monitorProgA_no_waitFlag⟩,
    ⟨raceProgB_setFlag_mem, raceProgB_no_lock, raceProgB_no_waitFlag⟩,
    fun c h => (monInv_holds rock hamlet c h).ownerA,
    fun c h => (raceInv_holds rock hamlet c h).ownerB⟩

/-- C4: in each demo run the completion flag starts false; each demo's
three thread programs contain exactly one flag write in total and every
write any thread can reach writes `true` (so the flag is never reset);
once true the flag stays true across every step; and when the signalling
thread has finished, the flag is true — so the flag goes from false to
true exactly once per run. -/
theorem flag_lifecycle (rock hamlet : List Char) :
    (monitorInit rock hamlet).flag = false ∧
    (raceInit rock hamlet).flag = false ∧
    setFlagCount (monitorProgA rock) + setFlagCount (monitorProgB hamlet) +
      setFlagCount (monitorProgOrch rock hamlet) = 1 ∧
    setFlagCount (raceProgA rock) + setFlagCount (raceProgB hamlet) +
      setFlagCount raceProgO = 1 ∧
    (∀ c tid v k, Reach (monitorInit rock hamlet) c →
      (c.thr tid).rest = Stmt.setFlag v :: k → v = true) ∧
    (∀ c tid v k, Reach (raceInit rock hamlet) c →
      (c.thr tid).rest = Stmt.setFlag v :: k → v = true) ∧
    (∀ c c2, Reach (monitorInit rock hamlet) c → Step c c2 →
      c.flag = true → c2.flag = true) ∧
    (∀ c c2, Reach (raceInit rock hamlet) c → Step c c2 →
      c.flag = true → c2.flag = true) ∧
    (∀ c, Reach (monitorInit rock hamlet) c → c.ta.rest = [] →
      c.flag = true) ∧
    (∀ c, Reach (raceInit rock hamlet) c → c.tb.rest = [] →
      c.flag = true) := by
  refine ⟨rfl, rfl, ?_, ?_, ?_, ?_, ?_, ?_, ?_, ?_⟩
  · simp [setFlagCount, monitorProgA, monitorProgB, monitorTailB,
      monitorProgOrch, List.countP_cons, List.countP_append, isSetFlag,
      setFlagCount_displayStmts]
  · simp [setFlagCount, raceProgA, raceProgB, raceProgO, raceTailO,
      List.countP_cons, List.countP_append, isSetFlag,
      setFlagCount_displayStmts]
  · intro c tid v k hr hk
    exact monitor_writes_true rock hamlet c hr tid v k hk
  · intro c tid v k hr hk
    exact race_writes_true rock hamlet c hr tid v k hk
  · intro c c2 hr hs hf
    exact monitor_flag_mono rock hamlet c c2 hr hs hf
  · intro c c2 hr hs hf
    exact race_flag_mono rock hamlet c c2 hr hs hf
  · intro c hr hdone
    cases hfl : c.flag
    · have := (monInv_holds rock hamlet c hr).pendA hfl
      rw [hdone] at this
      cases this
    · rfl
  · intro c hr hdone
    cases hfl : c.flag
    · have := (raceInv_holds rock hamlet c hr).pendB hfl
      rw [hdone] at this
      cases this
    · rfl

/-- C9: the orchestrating thread of `monitorTest` sleeps for exactly the
base grace period plus the per-character delay times the total character
count of both blobs — which equals `MAIN_WAIT` plus the total sleeping
time of the two workers' `displayTextSlowly` calls — and its program
contains no monitor operation at all (no lock, no wait, no flag write, no
notification). -/
theorem monitor_orchestrator_sleep (rock hamlet : List Char) :
    sleepTotal (monitorProgOrch rock hamlet) =
      MAIN_WAIT + (rock.length + hamlet.length) * TEXT_DELAY ∧
    sleepTotal (monitorProgOrch rock hamlet) =
      MAIN_WAIT + sleepTotal (displayStmts rock TEXT_DELAY) +
        sleepTotal (displayStmts hamlet TEXT_DELAY) ∧
    (∀ s ∈ monitorProgOrch rock hamlet, usesMonitor s = false) := by
  refine ⟨?_, ?_, ?_⟩
  · simp [sleepTotal, monitorProgOrch]
  · rw [sleepTotal_displayStmts, sleepTotal_displayStmts]
    simp [sleepTotal, monitorProgOrch]
    ring
  · intro s hs
    rcases List.mem_cons.mp hs with rfl | hs2
    · rfl
    · rcases List.mem_cons.mp hs2 with rfl | hs3
      · rfl
      · cases hs3

/-- Witness for `monitor_orchestrator_sleep` at concrete one- and
two-character blobs: 1000 + (1 + 2) * 3 = 1009 milliseconds, and the
sleep statement itself is not a monitor operation. -/
theorem monitor_orchestrator_sleep_w :
    sleepTotal (monitorProgOrch ['r'] ['h', 'x']) = 1009 ∧
    usesMonitor (Stmt.sleep (MAIN_WAIT + (1 + 2) * TEXT_DELAY)) = false := by
  constructor
  · have h := (monitor_orchestrator_sleep ['r'] ['h', 'x']).1
    rw [h]
    decide
  · exact (monitor_orchestrator_sleep ['r'] ['h', 'x']).2.2 _
      (List.mem_cons_self _ _)

/-! #### A concrete execution of each demo (with empty text blobs), used
to witness the reachability hypotheses of the theorems above -/

def demoM0 : Config := monitorInit [] []

def demoM1 : Config :=
  stepApply demoM0 TId.a false none
    ⟨[Stmt.out ['\n'], Stmt.setFlag true, Stmt.notifyAll], Mode.run⟩
    [(TId.a, rockBanner)]

def demoM2 : Config :=
  stepApply demoM1 TId.a false none
    ⟨[Stmt.setFlag true, Stmt.notifyAll], Mode.run⟩ [(TId.a, ['\n'])]

def demoM3 : Config :=
  stepApply demoM2 TId.a true none ⟨[Stmt.notifyAll], Mode.run⟩ []

def demoM4 : Config :=
  stepApply demoM3 TId.a true none ⟨[], Mode.run⟩ []

def demoM5 : Config :=
  stepApply demoM4 TId.b true (some TId.b)
    ⟨[Stmt.waitFlag, Stmt.out hamletBanner, Stmt.unlock], Mode.run⟩ []

def demoM6 : Config :=
  stepApply demoM5 TId.b true (some TId.b)
    ⟨[Stmt.out hamletBanner, Stmt.unlock], Mode.run⟩ []

def demoM7 : Config :=
  stepApply demoM6 TId.b true (some TId.b) ⟨[Stmt.unlock], Mode.run⟩
    [(TId.b, hamletBanner)]

def demoM8 : Config :=
  stepApply demoM7 TId.b true none ⟨[], Mode.run⟩ []

theorem reachDemoM2 : Reach demoM0 demoM2 :=
  Reach.tail
    (Reach.tail Reach.refl
      (Step.mk demoM0 TId.a false none
        ⟨[Stmt.out ['\n'], Stmt.setFlag true, Stmt.notifyAll], Mode.run⟩
        [(TId.a, rockBanner)]
        (LStep.outS false none rockBanner
          [Stmt.out ['\n'], Stmt.setFlag true, Stmt.notifyAll])))
    (Step.mk demoM1 TId.a false none
      ⟨[Stmt.setFlag true, Stmt.notifyAll], Mode.run⟩ [(TId.a, ['\n'])]
      (LStep.outS false none ['\n'] [Stmt.setFlag true, Stmt.notifyAll]))

theorem reachDemoM4 : Reach demoM0 demoM4 :=
  Reach.tail
    (Reach.tail reachDemoM2
      (Step.mk demoM2 TId.a true none ⟨[Stmt.notifyAll], Mode.run⟩ []
        (LStep.setFlagS false none true [Stmt.notifyAll])))
    (Step.mk demoM3 TId.a true none ⟨[], Mode.run⟩ []
      (LStep.notifyS true none []))

theorem reachDemoM : Reach demoM0 demoM8 :=
  Reach.tail
    (Reach.tail
      (Reach.tail
        (Reach.tail reachDemoM4
          (Step.mk demoM4 TId.b true (some TId.b)
            ⟨[Stmt.waitFlag, Stmt.out hamletBanner, Stmt.unlock], Mode.run⟩
            [] (LStep.lockS true
              [Stmt.waitFlag, Stmt.out hamletBanner, Stmt.unlock])))
        (Step.mk demoM5 TId.b true (some TId.b)
          ⟨[Stmt.out hamletBanner, Stmt.unlock], Mode.run⟩ []
          (LStep.waitPass [Stmt.out hamletBanner, Stmt.unlock])))
      (Step.mk demoM6 TId.b true (some TId.b) ⟨[Stmt.unlock], Mode.run⟩
        [(TId.b, hamletBanner)]
        (LStep.outS true (some TId.b) hamletBanner [Stmt.unlock])))
    (Step.mk demoM7 TId.b true none ⟨[], Mode.run⟩ []
      (LStep.unlockS true []))

def demoR0 : Config := raceInit [] []

def demoR1 : Config :=
  stepApply demoR0 TId.b false none
    ⟨[Stmt.setFlag true, Stmt.notifyAll], Mode.run⟩ [(TId.b, hamletBanner)]

def demoR2 : Config :=
  stepApply demoR1 TId.b true none ⟨[Stmt.notifyAll], Mode.run⟩ []

def demoR3 : Config :=
  stepApply demoR2 TId.b true none ⟨[], Mode.run⟩ []

theorem reachDemoR1 : Reach demoR0 demoR1 :=
  Reach.tail Reach.refl
    (Step.mk demoR0 TId.b false none
      ⟨[Stmt.setFlag true, Stmt.notifyAll], Mode.run⟩
      [(TId.b, hamletBanner)]
      (LStep.outS false none hamletBanner
        [Stmt.setFlag true, Stmt.notifyAll]))

theorem reachDemoR : Reach demoR0 demoR3 :=
  Reach.tail
    (Reach.tail reachDemoR1
      (Step.mk demoR1 TId.b true none ⟨[Stmt.notifyAll], Mode.run⟩ []
        (LStep.setFlagS false none true [Stmt.notifyAll])))
    (Step.mk demoR2 TId.b true none ⟨[], Mode.run⟩ []
      (LStep.notifyS true none []))

/-! #### Witnesses -/

/-- Witness for `monitor_output_ordering`, on a complete concrete run:
thread B has written, and thread A's trace is its full program output. -/
theorem monitor_output_ordering_w :
    anyB demoM8.outs = true ∧
    outsA demoM8.outs = emits (monitorProgA []) := by
  have h := monitor_output_ordering [] [] demoM8 reachDemoM
  exact ⟨rfl, h.2 rfl⟩

/-- Witness for `wait_discipline`: on the concrete run, thread B is past
its wait and the flag is true; and a concrete blocked re-entry step. -/
theorem wait_discipline_w :
    demoM8.flag = true ∧
    ((⟨[Stmt.waitFlag], Mode.blocked⟩ : Thread) =
        ⟨[Stmt.waitFlag], Mode.blocked⟩ ∧
      (none : Option TId) = none) := by
  refine ⟨wait_discipline.2.1 [] [] demoM8 reachDemoM List.nil_suffix, ?_⟩
  exact (wait_discipline.1 TId.b false (some TId.b) Mode.run [] false none
    ⟨[Stmt.waitFlag], Mode.blocked⟩ [] (LStep.waitBlock [])).2 rfl rfl

/-- Witness for `flag_write_without_mutex`: in both demos, a reachable
configuration in which the signalling thread is about to execute its
`setFlag true` while not holding the mutex. -/
theorem flag_write_without_mutex_w :
    demoM2.ta.rest = [Stmt.setFlag true, Stmt.notifyAll] ∧
    demoM2.owner ≠ some TId.a ∧
    demoR1.tb.rest = [Stmt.setFlag true, Stmt.notifyAll] ∧
    demoR1.owner ≠ some TId.b := by
  refine ⟨rfl, ?_, rfl, ?_⟩
  · exact (flag_write_without_mutex [] []).2.2.1 demoM2 reachDemoM2
  · exact (flag_write_without_mutex [] []).2.2.2 demoR1 reachDemoR1

/-- Witness for `flag_lifecycle`: the flag starts false and is true once
the signalling thread has finished, in both demos. -/
theorem flag_lifecycle_w :
    (monitorInit [] []).flag = false ∧ demoM4.ta.rest = [] ∧
    demoM4.flag = true ∧ demoR3.tb.rest = [] ∧ demoR3.flag = true := by
  refine ⟨(flag_lifecycle [] []).1, rfl, ?_, rfl, ?_⟩
  · exact (flag_lifecycle [] []).2.2.2.2.2.2.2.2.1 demoM4 reachDemoM4 rfl
  · exact (flag_lifecycle [] []).2.2.2.2.2.2.2.2.2 demoR3 reachDemoR rfl

end MonitorExample
